import Mathlib

/-!
Shallow embedding of the NedParcel trip/parcel core
(`src/controllers/trip-details.controller.ts`,
`src/controllers/parcel-details.controller.ts`,
`src/models/possible-routes.model.ts`, `src/models/parcel-details.model.ts`)
together with proofs about it.

Conventions of the embedding:
* Mongo ObjectIds are modelled as `Nat` (document ids) and rank ids, which the
  controllers immediately stringify with `String(...)`, as `String`.
* JS `Number` fields that the code guards with truthiness (`if (edge?.distance)`)
  or nullish coalescing (`?? 0`) are modelled as `Option Int`; the number `0` is
  falsy in JS, which `truthyB` reflects.
* A Mongoose `populate` of a reference field resolves the id against the store
  and yields `null` when the referenced document does not exist; this is
  modelled by `Option.bind` with the store lookup.
* The `while` loops of the BFS and of the path reconstruction are modelled with
  explicit fuel; the fuel bound is proved sufficient (`bfsAux_ne_none` below),
  so this is a faithful model of the terminating JS loops.
-/

namespace NedParcel

/-- A `PossibleRoute` document (directed edge of the rank graph), as selected by
`createTrip`: `fromRank toRank distance farePrice price driverSplit associationSplit`.
`farePrice` is never read by the modelled code paths and is omitted. -/
structure Edge where
  id : Nat
  fromRank : String
  toRank : String
  distance : Option Int
  price : Option Int
  driverSplit : Option Int
  associationSplit : Option Int
deriving DecidableEq, Repr

/-- JS truthiness of an optional number: `undefined` and `0` are falsy. -/
def truthyB : Option Int → Bool
  | none => false
  | some v => v != 0

/-- The adjacency structure built in `createTrip`:
`adjacency[from].push(to)` for each edge, in edge-list order. -/
def adj (es : List Edge) (u : String) : List String :=
  (es.filter (fun e => e.fromRank == u)).map (·.toRank)

/-- The edge lookup map of the Trip Builder: `edgeMap.set(`${from}->${to}`, e)`
for each edge in order.  `Map.set` overwrites, so the LAST edge with a given
`fromRank -> toRank` pair wins, which the `foldl` reproduces. -/
def edgeGet (es : List Edge) (u v : String) : Option Edge :=
  es.foldl (fun acc e => if e.fromRank == u && e.toRank == v then some e else acc) none

/-- The `prev` record of the BFS: keys are visited ranks, the value is the
predecessor rank (`null` for the start node).  Entry order is insertion order. -/
abbrev PrevMap := List (String × Option String)

/-- The keys of the `prev` record. -/
def keysP (pm : PrevMap) : List String := pm.map (·.1)

/-- `prev[k]`: `some v` when the key is present (`k in prev`), `none` otherwise. -/
def lookupP (pm : PrevMap) (k : String) : Option (Option String) :=
  (pm.find? (fun x => x.1 == k)).map (·.2)

/-- Body of the BFS neighbour loop:
`if (!(nxt in prev)) { prev[nxt] = current; queue.push(nxt); }`. -/
def bfsStepFold (c : String) (s : List String × PrevMap) (n : String) :
    List String × PrevMap :=
  if (lookupP s.2 n).isSome then s else (s.1 ++ [n], s.2 ++ [(n, some c)])

/-- The BFS `while (queue.length && !found)` loop of `createTrip`, with fuel.
Dequeue from the front (`queue.shift()`), stop with `found = true` when the
goal is dequeued, otherwise expand the dequeued node's neighbours. -/
def bfsAux (A : String → List String) (goal : String) :
    Nat → List String → PrevMap → Option (Bool × PrevMap)
  | 0, _, _ => none
  | _ + 1, [], pm => some (false, pm)
  | fuel + 1, c :: rest, pm =>
    if c == goal then some (true, pm)
    else
      let s := (A c).foldl (bfsStepFold c) (rest, pm)
      bfsAux A goal fuel s.1 s.2

/-- Every rank the BFS can ever enqueue: the start rank and the `toRank`s. -/
def nodeUniverse (es : List Edge) (start : String) : List String :=
  (start :: es.map (·.toRank)).dedup

/-- Fuel that provably dominates the BFS iteration count. -/
def bfsFuel (es : List Edge) (start : String) : Nat :=
  2 * (nodeUniverse es start).length + 2

/-- The full BFS of `createTrip`: start queue `[origin]`,
start map `{ [start]: null }`.  The `none` fallback is dead code
(`bfsAux_ne_none`). -/
def bfsRun (es : List Edge) (start goal : String) : Bool × PrevMap :=
  match bfsAux (adj es) goal (bfsFuel es start) [start] [(start, none)] with
  | some r => r
  | none => (false, [])

/-- The path reconstruction loop
`let cur = goal; while (cur) { pathRanks.push(cur); cur = prev[cur]; }`,
with fuel; stops when `prev[cur]` is `null` or the key is absent. -/
def chainAux (pm : PrevMap) : Nat → String → List String
  | 0, cur => [cur]
  | fuel + 1, cur =>
    cur ::
      (match lookupP pm cur with
        | some (some p) => chainAux pm fuel p
        | _ => [])

/-- The rank path computed inside `createTrip`: `none` when the BFS did not
reach the goal, otherwise the reconstructed, reversed predecessor chain. -/
def bfsPath (es : List Edge) (start goal : String) : Option (List String) :=
  let r := bfsRun es start goal
  if r.1 then some ((chainAux r.2 r.2.length goal).reverse) else none

/-- One leg of a trip (`TripLeg` embedded document). -/
structure Leg where
  leg : Nat
  associationSplit : Int
  driverSplit : Int
  details : Option Nat
  driver : Option Nat
deriving DecidableEq, Repr

/-- The leg materialisation of `createTrip`:
`pathRanks.slice(0, -1).map((fromRank, idx) => ...)` with
`toRank = pathRanks[idx + 1]`, splits copied from the matched edge (`?? 0`),
`details` the matched edge's id, `driver` unset. -/
def buildLegs (es : List Edge) : List String → Nat → List Leg
  | a :: b :: rest, idx =>
    { leg := idx + 1
      associationSplit := ((edgeGet es a b).bind (·.associationSplit)).getD 0
      driverSplit := ((edgeGet es a b).bind (·.driverSplit)).getD 0
      details := (edgeGet es a b).map (·.id)
      driver := none } :: buildLegs es (b :: rest) (idx + 1)
  | _, _ => []

/-- The consecutive rank pairs of a path. -/
def consecPairs (p : List String) : List (String × String) := p.zip p.tail

/-- `if (edge?.distance) fullDistance += edge.distance` — the accumulation is
guarded by JS truthiness, so an absent edge, an absent field and a `0` field
all contribute nothing. -/
def addTruthy (acc : Int) (o : Option Int) : Int :=
  match o with
  | none => acc
  | some v => if v = 0 then acc else acc + v

/-- The `fullDistance` accumulator of `createTrip`. -/
def pathDistance (es : List Edge) (p : List String) : Int :=
  (consecPairs p).foldl
    (fun acc ab => addTruthy acc ((edgeGet es ab.1 ab.2).bind (·.distance))) 0

/-- The `totalPrice` accumulator of `createTrip`. -/
def pathPrice (es : List Edge) (p : List String) : Int :=
  (consecPairs p).foldl
    (fun acc ab => addTruthy acc ((edgeGet es ab.1 ab.2).bind (·.price))) 0

/-- A trip document. -/
structure Trip where
  id : Nat
  origin : String
  destination : String
  price : Int
  fullDistance : Int
  route : List Leg
deriving DecidableEq, Repr

/-- The pure core of `createTrip`: run the BFS, and when a path was found build
the trip with derived route, price and distance (`none` mirrors the
`No route could be auto-generated` 400 response). -/
def createTrip (es : List Edge) (origin destination : String) : Option Trip :=
  match bfsPath es origin destination with
  | none => none
  | some pathRanks =>
    some { id := 0
           origin := origin
           destination := destination
           price := pathPrice es pathRanks
           fullDistance := pathDistance es pathRanks
           route := buildLegs es pathRanks 0 }

/-! ## Graph-theoretic specification side -/

/-- `l` is a walk from `u` to `v` in the directed graph of the edge list:
nonempty, starts at `u`, ends at `v`, consecutive ranks joined by an edge. -/
def Walk (es : List Edge) (u v : String) (l : List String) : Prop :=
  l.head? = some u ∧ l.getLast? = some v ∧ l.Chain' (fun a b => b ∈ adj es a)

/-- `v` is reachable from `u` over the edge list. -/
def Reach (es : List Edge) (u v : String) : Prop := ∃ l, Walk es u v l

/-- `n` is the graph-theoretic shortest hop count from `start` to `v`:
some walk has exactly `n` hops (`n + 1` ranks) and none has fewer. -/
def IsDist (es : List Edge) (start v : String) (n : Nat) : Prop :=
  (∃ l, Walk es start v l ∧ l.length = n + 1) ∧
    ∀ l, Walk es start v l → n + 1 ≤ l.length

/-- Well-formedness of a finished BFS predecessor map: unique keys, the start
rank mapped to `null`, every other entry pointing to an earlier-known parent
along an edge with the exact distance increment, every key reachable. -/
structure PrevOk (es : List Edge) (start : String) (pm : PrevMap) : Prop where
  knd : (keysP pm).Nodup
  startmem : lookupP pm start = some none
  nones : ∀ v, (v, none) ∈ pm → v = start
  parent : ∀ v u, (v, some u) ∈ pm → v ∈ adj es u ∧ u ∈ keysP pm ∧
    ∀ n, IsDist es start u n → IsDist es start v (n + 1)
  reach : ∀ v ∈ keysP pm, ∃ j, IsDist es start v j

/-- The loop invariant of the BFS `while` loop: `q` is the pending queue, `pm`
the predecessor record.  The `level` component is the classical BFS frontier
shape: the queue splits into a block at distance `k` followed by a block at
distance `k + 1`, every rank at distance `≤ k` is already known, every known
rank has distance `≤ k + 1`, and the known ranks at distance `k + 1` are all
still queued. -/
structure BfsInv (es : List Edge) (start goal : String) (q : List String)
    (pm : PrevMap) : Prop where
  knd : (keysP pm).Nodup
  qnd : q.Nodup
  qsub : ∀ v ∈ q, v ∈ keysP pm
  ksub : ∀ v ∈ keysP pm, v ∈ nodeUniverse es start
  startmem : lookupP pm start = some none
  nones : ∀ v, (v, none) ∈ pm → v = start
  parent : ∀ v u, (v, some u) ∈ pm → v ∈ adj es u ∧ u ∈ keysP pm ∧
    ∀ n, IsDist es start u n → IsDist es start v (n + 1)
  level : ∃ k qa qb, q = qa ++ qb ∧
    (∀ v ∈ qa, IsDist es start v k) ∧ (∀ v ∈ qb, IsDist es start v (k + 1)) ∧
    (∀ v j, IsDist es start v j → j ≤ k → v ∈ keysP pm) ∧
    (∀ v ∈ keysP pm, ∃ j, j ≤ k + 1 ∧ IsDist es start v j) ∧
    (∀ v ∈ keysP pm, IsDist es start v (k + 1) → v ∈ q)
  processed : ∀ u ∈ keysP pm, u ∉ q → ∀ w ∈ adj es u, w ∈ keysP pm
  goalq : goal ∈ keysP pm → goal ∈ q

/-! ## Persistent store and the remaining operations -/

/-- A parcel document (fields relevant to the modelled operations). -/
structure Parcel where
  id : Nat
  trip : Option Nat
  legIndex : Option Int
  status : String
  receiverOtp : String
deriving DecidableEq, Repr

/-- A driver document: `linkedRanks` is the set of ranks where the driver may
start a leg. -/
structure Driver where
  id : Nat
  linkedRanks : List String
deriving DecidableEq, Repr

/-- The document store: one collection per entity kind. -/
structure St where
  edges : List Edge
  trips : List Trip
  parcels : List Parcel
  drivers : List Driver
deriving DecidableEq, Repr

/-- `Trip.findById`. -/
def findTrip (st : St) (tid : Nat) : Option Trip := st.trips.find? (fun t => t.id == tid)

/-- `Parcel.findById`. -/
def findParcel (st : St) (pid : Nat) : Option Parcel :=
  st.parcels.find? (fun p => p.id == pid)

/-- `Driver.findById`. -/
def findDriver (st : St) (did : Nat) : Option Driver :=
  st.drivers.find? (fun d => d.id == did)

/-- `PossibleRoute.findById`. -/
def findEdge (st : St) (rid : Nat) : Option Edge := st.edges.find? (fun e => e.id == rid)

/-- Save an updated trip document back into its collection. -/
def updTrip (st : St) (tid : Nat) (f : Trip → Trip) : St :=
  { st with trips := st.trips.map (fun t => if t.id == tid then f t else t) }

/-- Save an updated parcel document back into its collection. -/
def updParcel (st : St) (pid : Nat) (f : Parcel → Parcel) : St :=
  { st with parcels := st.parcels.map (fun p => if p.id == pid then f p else p) }

inductive TripErr
  | missingFields
  | unreachable
deriving DecidableEq, Repr

/-- Stateful `createTrip` (`POST /api/trip-details`): reject missing (falsy)
origin/destination, otherwise run the pure core over the current edge
collection; only a successfully built trip is saved. -/
def createTripSt (st : St) (newId : Nat) (origin destination : String) :
    Except TripErr Trip × St :=
  if origin = "" ∨ destination = "" then (Except.error TripErr.missingFields, st)
  else
    match createTrip st.edges origin destination with
    | none => (Except.error TripErr.unreachable, st)
    | some t =>
      (Except.ok { t with id := newId },
        { st with trips := st.trips ++ [{ t with id := newId }] })

inductive LinkErr
  | missingParams
  | tripNotFound
  | invalidLegNumber
  | noDetails
  | driverNotFound
  | ineligibleDriver
deriving DecidableEq, Repr

/-- Set the driver on the leg at array index `i`. -/
def setLegDriverRoute (route : List Leg) (i : Nat) (did : Nat) : List Leg :=
  match route[i]? with
  | some l => route.set i { l with driver := some did }
  | none => route

/-- `linkDriverToTripLeg` (`POST /api/trip-details/link-driver`).
`if (!tripId || !leg || !driverId)` uses JS truthiness: an absent field, and
the number `0` for `leg`, all fail the required-parameter check.  The leg's
`details` reference is resolved by `populate`; a dangling reference populates
to `null` and is reported as a leg without route details.  (The code's
secondary `fromRank` re-fetch re-reads the same already-resolved edge from the
same store and can therefore never change the outcome; it is folded into the
single lookup here.) -/
def linkDriverToTripLeg (st : St) (tripId : Option Nat) (leg : Option Int)
    (driverId : Option Nat) : Except LinkErr Unit × St :=
  if tripId = none ∨ leg = none ∨ leg = some 0 ∨ driverId = none then
    (Except.error LinkErr.missingParams, st)
  else
    match tripId, leg, driverId with
    | some tid, some lg, some did =>
      match findTrip st tid with
      | none => (Except.error LinkErr.tripNotFound, st)
      | some tr =>
        if lg - 1 < 0 ∨ (tr.route.length : Int) ≤ lg - 1 then
          (Except.error LinkErr.invalidLegNumber, st)
        else
          match tr.route[(lg - 1).toNat]? with
          | none => (Except.error LinkErr.invalidLegNumber, st)
          | some legEntry =>
            match legEntry.details.bind (fun rid => findEdge st rid) with
            | none => (Except.error LinkErr.noDetails, st)
            | some e =>
              match findDriver st did with
              | none => (Except.error LinkErr.driverNotFound, st)
              | some dr =>
                if e.fromRank ∈ dr.linkedRanks then
                  (Except.ok (),
                    updTrip st tid (fun t =>
                      { t with route := setLegDriverRoute t.route (lg - 1).toNat did }))
                else (Except.error LinkErr.ineligibleDriver, st)
    | _, _, _ => (Except.error LinkErr.missingParams, st)

inductive UErr
  | notFound
deriving DecidableEq, Repr

/-- The per-leg body of `updateTrip`'s recomputation loop.  Returns the leg's
contribution to `fullDistance`, its contribution to `totalPrice`, and the
rewritten leg.  Mirrors the source exactly: with a resolved edge whose
`distance` is truthy, the distance is added and a truthy `price` is added once;
with a falsy `distance` the code re-fetches the same edge and adds its
numeric `distance`/`price`, and then the truthy `price` check fires as well
(adding truthy prices twice on that branch).  On both branches the leg's
splits are overwritten with the edge's splits when the edge carries them. -/
def updLeg (st : St) (l : Leg) : Int × Int × Leg :=
  match l.details.bind (fun rid => findEdge st rid) with
  | none => (0, 0, l)
  | some e =>
    let l' := { l with
      driverSplit := e.driverSplit.getD l.driverSplit
      associationSplit := e.associationSplit.getD l.associationSplit }
    if truthyB e.distance then
      (e.distance.getD 0, (if truthyB e.price then e.price.getD 0 else 0), l')
    else
      (e.distance.getD 0,
        e.price.getD 0 + (if truthyB e.price then e.price.getD 0 else 0), l')

/-- `updateTrip` (`PUT /api/trip-details/:id`): optionally replace
origin/destination (truthy check), then walk the legs recomputing
`fullDistance`/`price` and re-copying the splits from each leg's referenced
route, and save. -/
def updateTrip (st : St) (tripId : Nat) (origin? destination? : Option String) :
    Except UErr Trip × St :=
  match findTrip st tripId with
  | none => (Except.error UErr.notFound, st)
  | some tr =>
    let acc := tr.route.foldl
      (fun (a : Int × Int × List Leg) (l : Leg) =>
        let r := updLeg st l
        (a.1 + r.1, a.2.1 + r.2.1, a.2.2 ++ [r.2.2]))
      (0, 0, [])
    let tr' : Trip := { tr with
      origin := match origin? with
        | some o => if o = "" then tr.origin else o
        | none => tr.origin
      destination := match destination? with
        | some d => if d = "" then tr.destination else d
        | none => tr.destination
      fullDistance := acc.1
      price := acc.2.1
      route := acc.2.2 }
    (Except.ok tr', updTrip st tripId (fun _ => tr'))

inductive PErr
  | validation
  | parcelNotFound
  | tripNotFound
  | linkedTripNotFound
  | invalidLegIndex
  | outOfBounds
  | noTripContext
  | invalidOtp
deriving DecidableEq, Repr

/-- The client-controlled fields of a parcel create/update body that the
modelled invariants depend on (`...req.body` is spread into the document). -/
structure ParcelBody where
  trip : Option Nat
  legIndex : Option Int
  status : Option String
deriving DecidableEq, Repr

/-- `createParcel` (`POST /api/parcel-details`): the body is spread into the
new document after the server-generated defaults, so a client-supplied `trip`,
`legIndex` or `status` is stored as-is.  The only check is the schema's
`legIndex: { min: 0 }`; there is no bound against the trip's leg count. -/
def createParcel (st : St) (newId : Nat) (otp : String) (body : ParcelBody) :
    Except PErr Parcel × St :=
  let p : Parcel := { id := newId
                      trip := body.trip
                      legIndex := body.legIndex
                      status := body.status.getD "awaiting-pickup"
                      receiverOtp := otp }
  match body.legIndex with
  | some li =>
    if li < 0 then (Except.error PErr.validation, st)
    else (Except.ok p, { st with parcels := st.parcels ++ [p] })
  | none => (Except.ok p, { st with parcels := st.parcels ++ [p] })

/-- `updateParcel` (`PUT /api/parcel-details/:id`): `findByIdAndUpdate` applies
the supplied fields with no cross-checks against the trip. -/
def updateParcel (st : St) (pid : Nat) (body : ParcelBody) :
    Except PErr Parcel × St :=
  match findParcel st pid with
  | none => (Except.error PErr.parcelNotFound, st)
  | some p =>
    let p' : Parcel := { p with
      trip := match body.trip with | some t => some t | none => p.trip
      legIndex := match body.legIndex with | some l => some l | none => p.legIndex
      status := match body.status with | some s => s | none => p.status }
    (Except.ok p', updParcel st pid (fun _ => p'))

/-- `updateParcelStatus` (`POST /api/parcel-details/update-status`). -/
def updateParcelStatus (st : St) (pid : Nat) (status : String) :
    Except PErr Unit × St :=
  match findParcel st pid with
  | none => (Except.error PErr.parcelNotFound, st)
  | some _ => (Except.ok (), updParcel st pid (fun p => { p with status := status }))

/-- `verifyParcelOtp` (`POST /api/parcel-details/verify-otp`). -/
def verifyParcelOtp (st : St) (pid : Nat) (otp : String) :
    Except PErr Unit × St :=
  match findParcel st pid with
  | none => (Except.error PErr.parcelNotFound, st)
  | some p =>
    if p.receiverOtp ≠ otp then (Except.error PErr.invalidOtp, st)
    else (Except.ok (), updParcel st pid (fun q => { q with status := "received" }))

/-- `moveParcelLeg` (`POST /api/parcel-details/move-leg`):
`legIndex === undefined || legIndex < 0` is rejected; with a supplied `tripId`
the target trip is resolved and the bound checked (`!trip.route[legIndex]`),
rebinding the parcel's trip; otherwise the parcel's linked trip is used; with
neither, the request fails. -/
def moveParcelLeg (st : St) (pid : Nat) (tripId : Option Nat)
    (legIndex : Option Int) : Except PErr Unit × St :=
  match legIndex with
  | none => (Except.error PErr.invalidLegIndex, st)
  | some li =>
    if li < 0 then (Except.error PErr.invalidLegIndex, st)
    else
      match findParcel st pid with
      | none => (Except.error PErr.parcelNotFound, st)
      | some p =>
        match tripId with
        | some tid =>
          match findTrip st tid with
          | none => (Except.error PErr.tripNotFound, st)
          | some tr =>
            if li.toNat < tr.route.length then
              (Except.ok (),
                updParcel st pid (fun q => { q with trip := some tid, legIndex := some li }))
            else (Except.error PErr.outOfBounds, st)
        | none =>
          match p.trip with
          | some ptid =>
            match findTrip st ptid with
            | none => (Except.error PErr.linkedTripNotFound, st)
            | some tr =>
              if li.toNat < tr.route.length then
                (Except.ok (), updParcel st pid (fun q => { q with legIndex := some li }))
              else (Except.error PErr.outOfBounds, st)
          | none => (Except.error PErr.noTripContext, st)

/-- The parcel/trip referential invariant of the spec: a parcel linked to an
existing trip carries a leg index that is in bounds for that trip's current
leg sequence. -/
def ParcelLegInv (st : St) : Prop :=
  ∀ p ∈ st.parcels, ∀ t, p.trip = some t → ∀ tr, findTrip st t = some tr →
    ∃ n, p.legIndex = some n ∧ 0 ≤ n ∧ n.toNat < tr.route.length

/-! ## Concrete stores used by witnesses and counterexamples -/

/-- C4 witness graph: ranks `"A" → "B" → "C"`. -/
def edgeAB : Edge := ⟨1, "A", "B", some 10, some 3, some 40, some 60⟩

def edgeBC : Edge := ⟨2, "B", "C", some 15, some 4, some 50, some 50⟩

/-- Parallel edges between the same rank pair, in edge-list order. -/
def edgeAB2 : Edge := ⟨2, "A", "B", some 7, some 4, some 50, some 50⟩

def edgeC2 : Edge := ⟨1, "A", "B", some 10, some 5, some 40, some 60⟩

def tripC2 : Trip := ⟨1, "A", "B", 5, 10, [⟨1, 60, 40, some 1, none⟩]⟩

def driverC2 : Driver := ⟨7, ["A"]⟩

def driverC2b : Driver := ⟨8, ["C"]⟩

def stC2 : St := ⟨[edgeC2], [tripC2], [], [driverC2, driverC2b]⟩

def tripC7 : Trip :=
  ⟨1, "A", "C", 7, 25, [⟨1, 60, 40, some 1, none⟩, ⟨2, 50, 50, some 2, none⟩]⟩

def parcelW : Parcel := ⟨5, some 1, some 0, "awaiting-pickup", "111111"⟩

def parcelFree : Parcel := ⟨6, none, none, "awaiting-pickup", "222222"⟩

def stC8 : St := ⟨[edgeAB, edgeBC], [tripC7], [parcelW, parcelFree], []⟩

def edgeC5 : Edge := ⟨1, "A", "B", some 10, some 3, some 55, some 45⟩

def tripC5 : Trip := ⟨3, "A", "B", 3, 10, [⟨1, 60, 40, some 1, none⟩]⟩

def stC5 : St := ⟨[edgeC5], [tripC5], [], []⟩

/-! ## Basic lemmas about the Trip Builder -/

theorem consecPairs_cons₂ (a b : String) (rest : List String) :
    consecPairs (a :: b :: rest) = (a, b) :: consecPairs (b :: rest) := rfl

theorem addTruthy_eq (acc : Int) (o : Option Int) : addTruthy acc o = acc + o.getD 0 := by
  cases o with
  | none => simp [addTruthy]
  | some v =>
    by_cases h : v = 0 <;> simp [addTruthy, h]

theorem foldl_addTruthy {α : Type} (f : α → Option Int) (l : List α) (acc : Int) :
    l.foldl (fun a x => addTruthy a (f x)) acc = acc + (l.map (fun x => (f x).getD 0)).sum := by
  induction l generalizing acc with
  | nil => simp
  | cons x xs ih =>
    rw [List.foldl_cons, ih, addTruthy_eq, List.map_cons, List.sum_cons]
    ring

theorem pathDistance_eq_sum (es : List Edge) (p : List String) :
    pathDistance es p =
      ((consecPairs p).map
        (fun ab => ((edgeGet es ab.1 ab.2).bind Edge.distance).getD 0)).sum := by
  simpa using foldl_addTruthy (fun ab => (edgeGet es ab.1 ab.2).bind Edge.distance)
    (consecPairs p) 0

theorem pathPrice_eq_sum (es : List Edge) (p : List String) :
    pathPrice es p =
      ((consecPairs p).map
        (fun ab => ((edgeGet es ab.1 ab.2).bind Edge.price).getD 0)).sum := by
  simpa using foldl_addTruthy (fun ab => (edgeGet es ab.1 ab.2).bind Edge.price)
    (consecPairs p) 0

theorem buildLegs_map_leg (es : List Edge) :
    ∀ (p : List String) (i : Nat),
      (buildLegs es p i).map Leg.leg = List.range' (i + 1) (p.length - 1)
  | [], _ => by simp [buildLegs]
  | [_], _ => by simp [buildLegs]
  | a :: b :: rest, i => by
    have ih := buildLegs_map_leg es (b :: rest) (i + 1)
    simp only [buildLegs, List.map_cons, ih, List.length_cons, Nat.add_sub_cancel]
    rw [List.range'_succ]

theorem buildLegs_map_details (es : List Edge) :
    ∀ (p : List String) (i : Nat),
      (buildLegs es p i).map Leg.details =
        (consecPairs p).map (fun ab => (edgeGet es ab.1 ab.2).map Edge.id)
  | [], _ => by simp [buildLegs, consecPairs]
  | [_], _ => by simp [buildLegs, consecPairs]
  | a :: b :: rest, i => by
    have ih := buildLegs_map_details es (b :: rest) (i + 1)
    simp only [buildLegs, List.map_cons, ih, consecPairs_cons₂]

theorem edgeGet_eq_getLast? (es : List Edge) (u v : String) :
    edgeGet es u v =
      (es.filter (fun e => e.fromRank == u && e.toRank == v)).getLast? := by
  suffices h : ∀ (l : List Edge) (acc : Option Edge),
      l.foldl (fun acc e => if e.fromRank == u && e.toRank == v then some e else acc) acc =
        match (l.filter (fun e => e.fromRank == u && e.toRank == v)).getLast? with
        | some e => some e
        | none => acc by
    have := h es none
    rw [edgeGet, this]
    cases (es.filter (fun e => e.fromRank == u && e.toRank == v)).getLast? <;> simp
  intro l
  induction l with
  | nil => intro acc; simp
  | cons e es ih =>
    intro acc
    rw [List.foldl_cons]
    rw [List.filter_cons]
    by_cases he : (e.fromRank == u && e.toRank == v) = true
    · rw [if_pos he, ih (some e), if_pos he]
      rcases h2 : (es.filter (fun e => e.fromRank == u && e.toRank == v)) with _ | ⟨x, xs⟩
      · rw [h2]
        simp only [List.getLast?_nil, List.getLast?_singleton]
      · rw [h2]
        cases h3 : (x :: xs).getLast? with
        | none => exact absurd h3 (by simp)
        | some y => rw [List.getLast?_cons_cons, h3]
    · rw [if_neg he, ih acc, if_neg he]

/-- Inversion of `createTrip`: a returned trip is built from the reconstructed
BFS path. -/
theorem createTrip_inv (es : List Edge) (o d : String) (t : Trip)
    (h : createTrip es o d = some t) :
    ∃ p, bfsPath es o d = some p ∧
      t = { id := 0, origin := o, destination := d, price := pathPrice es p,
            fullDistance := pathDistance es p, route := buildLegs es p 0 } := by
  unfold createTrip at h
  rcases hp : bfsPath es o d with _ | p
  · rw [hp] at h; exact absurd h (by simp)
  · rw [hp] at h
    exact ⟨p, rfl, by injection h with h'; exact h'.symm⟩

/-- C9: legs of a generated trip are numbered exactly `1..N` in path order,
`N = pathLength - 1` (zero legs when origin = destination). -/
theorem createTrip_leg_numbers (es : List Edge) (o d : String) (t : Trip)
    (h : createTrip es o d = some t) :
    ∃ p, bfsPath es o d = some p ∧
      t.route.map Leg.leg = List.range' 1 (p.length - 1) := by
  rcases createTrip_inv es o d t h with ⟨p, hp, ht⟩
  exact ⟨p, hp, by rw [ht]; exact buildLegs_map_leg es p 0⟩

/-- C4: at creation time `fullDistance` is the sum of the matched edges'
`distance` fields and `price` the sum of their `price` fields, a missing edge
or missing field contributing `0` for its leg. -/
theorem createTrip_aggregates (es : List Edge) (o d : String) (t : Trip)
    (h : createTrip es o d = some t) :
    ∃ p, bfsPath es o d = some p ∧
      t.fullDistance =
        ((consecPairs p).map
          (fun ab => ((edgeGet es ab.1 ab.2).bind Edge.distance).getD 0)).sum ∧
      t.price =
        ((consecPairs p).map
          (fun ab => ((edgeGet es ab.1 ab.2).bind Edge.price).getD 0)).sum := by
  rcases createTrip_inv es o d t h with ⟨p, hp, ht⟩
  exact ⟨p, hp, by rw [ht]; exact pathDistance_eq_sum es p,
    by rw [ht]; exact pathPrice_eq_sum es p⟩

theorem createTrip_leg_numbers_witness :
    ∃ t, createTrip [edgeAB, edgeBC] "A" "C" = some t ∧
      (∃ p, bfsPath [edgeAB, edgeBC] "A" "C" = some p ∧
        t.route.map Leg.leg = List.range' 1 (p.length - 1)) ∧
      t.route.map Leg.leg = [1, 2] := by
  refine ⟨_, rfl, createTrip_leg_numbers _ _ _ _ rfl, by decide⟩

theorem createTrip_aggregates_witness :
    ∃ t, createTrip [edgeAB, edgeBC] "A" "C" = some t ∧
      (∃ p, bfsPath [edgeAB, edgeBC] "A" "C" = some p ∧
        t.fullDistance =
          ((consecPairs p).map
            (fun ab => ((edgeGet [edgeAB, edgeBC] ab.1 ab.2).bind Edge.distance).getD 0)).sum ∧
        t.price =
          ((consecPairs p).map
            (fun ab => ((edgeGet [edgeAB, edgeBC] ab.1 ab.2).bind Edge.price).getD 0)).sum) ∧
      t.fullDistance = 25 ∧ t.price = 7 := by
  refine ⟨_, rfl, createTrip_aggregates _ _ _ _ rfl, by decide, by decide⟩

/-- C6 counterexample: with two parallel edges `"A" → "B"` (ids 1 then 2 in
edge-list order), the generated leg references edge 2 — the last match, not
the first. -/
theorem parallel_edges_last_wins_cex :
    (createTrip [edgeAB, edgeAB2] "A" "B").map (fun t => t.route.map Leg.details) =
      some [some 2] ∧ (2 : Nat) ≠ 1 := by
  constructor
  · decide
  · decide

/-- C6 amended: each leg's `details` references the LAST matching edge in
edge-list iteration order (the `Map.set` in the builder overwrites earlier
parallel edges). -/
theorem createTrip_details_last_match (es : List Edge) (o d : String) (t : Trip)
    (h : createTrip es o d = some t) :
    ∃ p, bfsPath es o d = some p ∧
      t.route.map Leg.details =
        (consecPairs p).map (fun ab =>
          ((es.filter (fun e => e.fromRank == ab.1 && e.toRank == ab.2)).getLast?).map
            Edge.id) := by
  rcases createTrip_inv es o d t h with ⟨p, hp, ht⟩
  refine ⟨p, hp, ?_⟩
  rw [ht]
  have := buildLegs_map_details es p 0
  simpa [edgeGet_eq_getLast?] using this

theorem createTrip_details_last_match_witness :
    ∃ t, createTrip [edgeAB, edgeAB2] "A" "B" = some t ∧
      (∃ p, bfsPath [edgeAB, edgeAB2] "A" "B" = some p ∧
        t.route.map Leg.details =
          (consecPairs p).map (fun ab =>
            (([edgeAB, edgeAB2].filter
              (fun e => e.fromRank == ab.1 && e.toRank == ab.2)).getLast?).map
              Edge.id)) ∧
      t.route.map Leg.details = [some 2] := by
  refine ⟨_, rfl, createTrip_details_last_match _ _ _ _ rfl, by decide⟩

/-! ## Store update lemmas -/

theorem find?_map_upd {α : Type} (l : List α) (key : α → Nat) (tid : Nat) (f : α → α)
    (hf : ∀ x, key x = tid → key (f x) = key x) :
    (l.map (fun x => if key x == tid then f x else x)).find? (fun x => key x == tid) =
      (l.find? (fun x => key x == tid)).map f := by
  induction l with
  | nil => rfl
  | cons x xs ih =>
    simp only [List.map_cons]
    by_cases h : (key x == tid) = true
    · have hx : key x = tid := by simpa using h
      rw [if_pos h,
        List.find?_cons_of_pos (p := fun x => key x == tid) _ (by simpa [hf x hx] using h),
        List.find?_cons_of_pos (p := fun x => key x == tid) _ h]
      rfl
    · rw [if_neg h, List.find?_cons_of_neg (p := fun x => key x == tid) _ h,
        List.find?_cons_of_neg (p := fun x => key x == tid) _ h, ih]

theorem findTrip_updTrip (st : St) (tid : Nat) (f : Trip → Trip)
    (hf : ∀ t, t.id = tid → (f t).id = t.id) :
    findTrip (updTrip st tid f) tid = (findTrip st tid).map f := by
  simpa [findTrip, updTrip] using find?_map_upd st.trips Trip.id tid f hf

/-! ## C2: driver-to-leg eligibility -/

/-- The operative case split of `linkDriverToTripLeg` once all the earlier
lookups succeed: the request reduces to the `linkedRanks` membership test. -/
theorem linkDriver_reduces (st : St) (tid did : Nat) (lg : Int) (tr : Trip)
    (legEntry : Leg) (rid : Nat) (e : Edge) (dr : Driver)
    (htr : findTrip st tid = some tr)
    (hlo : 1 ≤ lg) (hhi : lg ≤ (tr.route.length : Int))
    (hleg : tr.route[(lg - 1).toNat]? = some legEntry)
    (hdet : legEntry.details = some rid)
    (he : findEdge st rid = some e)
    (hdr : findDriver st did = some dr) :
    linkDriverToTripLeg st (some tid) (some lg) (some did) =
      if e.fromRank ∈ dr.linkedRanks then
        (Except.ok (),
          updTrip st tid (fun t =>
            { t with route := setLegDriverRoute t.route (lg - 1).toNat did }))
      else (Except.error LinkErr.ineligibleDriver, st) := by
  unfold linkDriverToTripLeg
  rw [if_neg (by simp; omega)]
  dsimp only
  rw [htr]
  dsimp only
  rw [if_neg (by omega), hleg]
  dsimp only
  rw [hdet]
  dsimp only [Option.bind]
  rw [he]
  dsimp only
  rw [hdr]

/-- C2: with the preconditions resolved, linking succeeds iff the driver's
`linkedRanks` contains the leg's route's `fromRank`; success sets exactly that
leg's driver, failure returns the ineligible-driver error with the store
untouched. -/
theorem linkDriver_eligibility (st : St) (tid did : Nat) (lg : Int) (tr : Trip)
    (legEntry : Leg) (rid : Nat) (e : Edge) (dr : Driver)
    (htr : findTrip st tid = some tr)
    (hlo : 1 ≤ lg) (hhi : lg ≤ (tr.route.length : Int))
    (hleg : tr.route[(lg - 1).toNat]? = some legEntry)
    (hdet : legEntry.details = some rid)
    (he : findEdge st rid = some e)
    (hdr : findDriver st did = some dr) :
    ((linkDriverToTripLeg st (some tid) (some lg) (some did)).1 = Except.ok () ↔
      e.fromRank ∈ dr.linkedRanks) ∧
    (e.fromRank ∈ dr.linkedRanks →
      findTrip (linkDriverToTripLeg st (some tid) (some lg) (some did)).2 tid =
        some { tr with
          route := tr.route.set (lg - 1).toNat { legEntry with driver := some did } }) ∧
    (e.fromRank ∉ dr.linkedRanks →
      linkDriverToTripLeg st (some tid) (some lg) (some did) =
        (Except.error LinkErr.ineligibleDriver, st)) := by
  have key := linkDriver_reduces st tid did lg tr legEntry rid e dr htr hlo hhi hleg hdet he hdr
  refine ⟨?_, ?_, ?_⟩
  · rw [key]
    by_cases hm : e.fromRank ∈ dr.linkedRanks
    · simp [hm]
    · simp [hm]
  · intro hm
    rw [key, if_pos hm]
    rw [findTrip_updTrip st tid
      (fun t => { t with route := setLegDriverRoute t.route (lg - 1).toNat did })
      (fun t _ => rfl), htr]
    simp only [Option.map_some']
    rw [setLegDriverRoute, hleg]
  · intro hm
    rw [key, if_neg hm]

theorem linkDriver_eligibility_witness :
    findTrip stC2 1 = some tripC2 ∧ (1 : Int) ≤ 1 ∧ (1 : Int) ≤ (tripC2.route.length : Int) ∧
    tripC2.route[((1 : Int) - 1).toNat]? = some ⟨1, 60, 40, some 1, none⟩ ∧
    findEdge stC2 1 = some edgeC2 ∧ findDriver stC2 7 = some driverC2 ∧
    (((linkDriverToTripLeg stC2 (some 1) (some 1) (some 7)).1 = Except.ok () ↔
        edgeC2.fromRank ∈ driverC2.linkedRanks) ∧
      (edgeC2.fromRank ∈ driverC2.linkedRanks →
        findTrip (linkDriverToTripLeg stC2 (some 1) (some 1) (some 7)).2 1 =
          some { tripC2 with
            route := tripC2.route.set ((1 : Int) - 1).toNat
              { (⟨1, 60, 40, some 1, none⟩ : Leg) with driver := some 7 } }) ∧
      (edgeC2.fromRank ∉ driverC2.linkedRanks →
        linkDriverToTripLeg stC2 (some 1) (some 1) (some 7) =
          (Except.error LinkErr.ineligibleDriver, stC2))) :=
  ⟨rfl, by decide, by decide, rfl, rfl, rfl,
    linkDriver_eligibility stC2 1 7 1 tripC2 ⟨1, 60, 40, some 1, none⟩ 1 edgeC2 driverC2
      rfl (by decide) (by decide) rfl rfl rfl rfl⟩

/-! ## C10: `leg = 0` is swallowed by the required-parameter truthiness check -/

/-- C10: a request with `leg = 0` (any `tripId`/`driverId` supplied) fails the
`!tripId || !leg || !driverId` truthiness check and yields the generic
missing-parameter error; the invalid-leg-number error only ever arises for a
supplied nonzero `leg` outside `1..route.length` of a resolved trip. -/
theorem linkDriver_leg_zero (st : St) (tid did : Nat) (otid odid : Option Nat)
    (oleg : Option Int)
    (h : (linkDriverToTripLeg st otid oleg odid).1 =
      Except.error LinkErr.invalidLegNumber) :
    (linkDriverToTripLeg st (some tid) (some 0) (some did)).1 =
        Except.error LinkErr.missingParams ∧
    ∃ n tid' tr, oleg = some n ∧ n ≠ 0 ∧ otid = some tid' ∧
      findTrip st tid' = some tr ∧ (n < 1 ∨ (tr.route.length : Int) < n) := by
  constructor
  · unfold linkDriverToTripLeg
    rw [if_pos (by simp)]
  · by_cases hg : (otid = none ∨ oleg = none ∨ oleg = some 0 ∨ odid = none)
    · rw [linkDriverToTripLeg.eq_def, if_pos hg] at h
      simp at h
    · rw [linkDriverToTripLeg.eq_def, if_neg hg] at h
      rcases otid with _ | tid'
      · exact absurd (Or.inl rfl) hg
      rcases oleg with _ | n
      · exact absurd (Or.inr (Or.inl rfl)) hg
      rcases odid with _ | did'
      · exact absurd (Or.inr (Or.inr (Or.inr rfl))) hg
      simp only at h
      rcases htr : findTrip st tid' with _ | tr
      · rw [htr] at h; simp at h
      rw [htr] at h
      dsimp only at h
      by_cases hb : (n - 1 < 0 ∨ (tr.route.length : Int) ≤ n - 1)
      · refine ⟨n, tid', tr, rfl, ?_, rfl, htr, by omega⟩
        intro hn0
        exact hg (Or.inr (Or.inr (Or.inl (by rw [hn0]))))
      · rw [if_neg hb] at h
        have hlt : (n - 1).toNat < tr.route.length := by omega
        rw [List.getElem?_eq_getElem hlt] at h
        dsimp only at h
        rcases hd : (tr.route[(n - 1).toNat]).details.bind (fun rid => findEdge st rid)
          with _ | e
        · rw [hd] at h; simp at h
        rw [hd] at h
        dsimp only at h
        rcases hdr : findDriver st did' with _ | dr
        · rw [hdr] at h; simp at h
        rw [hdr] at h
        dsimp only at h
        by_cases hm : e.fromRank ∈ dr.linkedRanks
        · rw [if_pos hm] at h; simp at h
        · rw [if_neg hm] at h; simp at h

theorem linkDriver_leg_zero_witness :
    (linkDriverToTripLeg stC2 (some 1) (some 9) (some 7)).1 =
        Except.error LinkErr.invalidLegNumber ∧
    ((linkDriverToTripLeg stC2 (some 2) (some 0) (some 3)).1 =
        Except.error LinkErr.missingParams ∧
      ∃ n tid' tr, (some (9 : Int)) = some n ∧ n ≠ 0 ∧ (some (1 : Nat)) = some tid' ∧
        findTrip stC2 tid' = some tr ∧ (n < 1 ∨ (tr.route.length : Int) < n)) :=
  ⟨rfl, linkDriver_leg_zero stC2 2 3 (some 1) (some 7) (some 9) rfl⟩

/-! ## C8: parcel leg movement bounds -/

theorem moveParcel_reduces_target (st : St) (pid : Nat) (li : Int) (p : Parcel)
    (tid : Nat) (tr : Trip) (h0 : 0 ≤ li) (hp : findParcel st pid = some p)
    (htr : findTrip st tid = some tr) :
    moveParcelLeg st pid (some tid) (some li) =
      if li.toNat < tr.route.length then
        (Except.ok (),
          updParcel st pid (fun q => { q with trip := some tid, legIndex := some li }))
      else (Except.error PErr.outOfBounds, st) := by
  unfold moveParcelLeg
  dsimp only
  rw [if_neg (by omega), hp]
  dsimp only
  rw [htr]

theorem moveParcel_reduces_linked (st : St) (pid : Nat) (li : Int) (p : Parcel)
    (ptid : Nat) (tr : Trip) (h0 : 0 ≤ li) (hp : findParcel st pid = some p)
    (hpt : p.trip = some ptid) (htr : findTrip st ptid = some tr) :
    moveParcelLeg st pid none (some li) =
      if li.toNat < tr.route.length then
        (Except.ok (), updParcel st pid (fun q => { q with legIndex := some li }))
      else (Except.error PErr.outOfBounds, st) := by
  unfold moveParcelLeg
  dsimp only
  rw [if_neg (by omega), hp]
  dsimp only
  rw [hpt]
  dsimp only
  rw [htr]

/-- C8: once a parcel is found, a non-negative `legIndex` succeeds against the
resolved target trip (supplied `tripId`, else the parcel's linked trip) iff it
is below the trip's leg count, failing with the out-of-bounds leg-index error
otherwise; with neither a linked trip nor a `tripId` the request fails with
the missing-trip validation error. -/
theorem moveParcelLeg_bounds (st : St) (pid : Nat) (li : Int) (p : Parcel)
    (hp : findParcel st pid = some p) (h0 : 0 ≤ li) :
    (∀ tid tr, findTrip st tid = some tr →
      (((moveParcelLeg st pid (some tid) (some li)).1 = Except.ok () ↔
          li.toNat < tr.route.length) ∧
        (¬ li.toNat < tr.route.length →
          moveParcelLeg st pid (some tid) (some li) =
            (Except.error PErr.outOfBounds, st)))) ∧
    (∀ ptid tr, p.trip = some ptid → findTrip st ptid = some tr →
      (((moveParcelLeg st pid none (some li)).1 = Except.ok () ↔
          li.toNat < tr.route.length) ∧
        (¬ li.toNat < tr.route.length →
          moveParcelLeg st pid none (some li) =
            (Except.error PErr.outOfBounds, st)))) ∧
    (p.trip = none →
      moveParcelLeg st pid none (some li) = (Except.error PErr.noTripContext, st)) := by
  refine ⟨?_, ?_, ?_⟩
  · intro tid tr htr
    have key := moveParcel_reduces_target st pid li p tid tr h0 hp htr
    constructor
    · rw [key]
      by_cases hb : li.toNat < tr.route.length
      · simp [hb]
      · simp [hb]
    · intro hb
      rw [key, if_neg hb]
  · intro ptid tr hpt htr
    have key := moveParcel_reduces_linked st pid li p ptid tr h0 hp hpt htr
    constructor
    · rw [key]
      by_cases hb : li.toNat < tr.route.length
      · simp [hb]
      · simp [hb]
    · intro hb
      rw [key, if_neg hb]
  · intro hpt
    unfold moveParcelLeg
    dsimp only
    rw [if_neg (by omega), hp]
    dsimp only
    rw [hpt]

theorem moveParcelLeg_bounds_witness :
    findParcel stC8 6 = some parcelFree ∧ (0 : Int) ≤ 1 ∧
    ((∀ tid tr, findTrip stC8 tid = some tr →
      (((moveParcelLeg stC8 6 (some tid) (some 1)).1 = Except.ok () ↔
          (1 : Int).toNat < tr.route.length) ∧
        (¬ (1 : Int).toNat < tr.route.length →
          moveParcelLeg stC8 6 (some tid) (some 1) =
            (Except.error PErr.outOfBounds, stC8)))) ∧
    (∀ ptid tr, parcelFree.trip = some ptid → findTrip stC8 ptid = some tr →
      (((moveParcelLeg stC8 6 none (some 1)).1 = Except.ok () ↔
          (1 : Int).toNat < tr.route.length) ∧
        (¬ (1 : Int).toNat < tr.route.length →
          moveParcelLeg stC8 6 none (some 1) =
            (Except.error PErr.outOfBounds, stC8)))) ∧
    (parcelFree.trip = none →
      moveParcelLeg stC8 6 none (some 1) = (Except.error PErr.noTripContext, stC8))) :=
  ⟨rfl, by decide, moveParcelLeg_bounds stC8 6 1 parcelFree rfl (by decide)⟩

/-! ## C7: the parcel/trip leg-index invariant -/

/-- C7 counterexample: from an invariant-satisfying store, a single
`createParcel` call with a client-supplied `trip` and an out-of-bounds
`legIndex` produces a store that violates the invariant (the body is spread
into the document unchecked). -/
theorem parcel_leg_inv_cex :
    ParcelLegInv (⟨[edgeAB, edgeBC], [tripC7], [], []⟩ : St) ∧
    (createParcel ⟨[edgeAB, edgeBC], [tripC7], [], []⟩ 9 "123456"
        ⟨some 1, some 5, none⟩).1 =
      Except.ok ⟨9, some 1, some 5, "awaiting-pickup", "123456"⟩ ∧
    ¬ ParcelLegInv
      (createParcel ⟨[edgeAB, edgeBC], [tripC7], [], []⟩ 9 "123456"
        ⟨some 1, some 5, none⟩).2 := by
  refine ⟨?_, rfl, ?_⟩
  · intro p hp
    exact absurd hp (List.not_mem_nil p)
  · intro h
    have hm : (⟨9, some 1, some 5, "awaiting-pickup", "123456"⟩ : Parcel) ∈
        (createParcel ⟨[edgeAB, edgeBC], [tripC7], [], []⟩ 9 "123456"
          ⟨some 1, some 5, none⟩).2.parcels := by
      simp [createParcel]
    rcases h _ hm 1 rfl tripC7 rfl with ⟨n, hn, _, hlt⟩
    have : n = 5 := by simpa using hn.symm
    subst this
    simp [tripC7] at hlt

theorem inj_id_of_nodup {α : Type} (l : List α) (key : α → Nat)
    (hnd : (l.map key).Nodup) :
    ∀ x ∈ l, ∀ y ∈ l, key x = key y → x = y := by
  intro x hx y hy hxy
  exact List.inj_on_of_nodup_map hnd hx hy hxy

/-- In a store with unique parcel ids, the parcel found for `pid` is the only
one whose id matches. -/
theorem findParcel_unique (st : St) (pid : Nat) (p : Parcel)
    (hnd : (st.parcels.map Parcel.id).Nodup)
    (hp : findParcel st pid = some p) :
    ∀ q ∈ st.parcels, (q.id == pid) = true → q = p := by
  intro q hq hqid
  have hp' : st.parcels.find? (fun r => r.id == pid) = some p := hp
  have hpmem : p ∈ st.parcels := List.mem_of_find?_eq_some hp'
  have hpid := List.find?_some hp'
  exact inj_id_of_nodup st.parcels Parcel.id hnd q hq p hpmem
    (by simp at hqid hpid; omega)

theorem inv_updParcel_of_preserve (st : St) (pid : Nat) (f : Parcel → Parcel)
    (hf : ∀ p, (f p).trip = p.trip ∧ (f p).legIndex = p.legIndex)
    (hinv : ParcelLegInv st) : ParcelLegInv (updParcel st pid f) := by
  intro q hq t hqt tr htr
  have htr' : findTrip st t = some tr := htr
  have hq' : q ∈ st.parcels.map (fun p => if p.id == pid then f p else p) := hq
  rcases List.mem_map.mp hq' with ⟨p, hpmem, rfl⟩
  by_cases h : (p.id == pid) = true
  · rw [if_pos h] at hqt ⊢
    rw [(hf p).1] at hqt
    rcases hinv p hpmem t hqt tr htr' with ⟨n, hn, h0, hlt⟩
    exact ⟨n, by rw [(hf p).2, hn], h0, hlt⟩
  · rw [if_neg h] at hqt ⊢
    exact hinv p hpmem t hqt tr htr'

/-- C7 amended: `moveParcelLeg`, `updateParcelStatus` and `verifyParcelOtp`
preserve the trip/leg-index invariant (in a store with unique parcel ids);
`createParcel` and `updateParcel` take the client body unchecked and can break
it, so the invariant does not hold over all parcel operations. -/
theorem parcel_ops_preserve_leg_inv (st : St) (pid : Nat) (tripId : Option Nat)
    (legIndex : Option Int) (status otp : String)
    (hnd : (st.parcels.map Parcel.id).Nodup) (hinv : ParcelLegInv st) :
    ParcelLegInv (moveParcelLeg st pid tripId legIndex).2 ∧
    ParcelLegInv (updateParcelStatus st pid status).2 ∧
    ParcelLegInv (verifyParcelOtp st pid otp).2 := by
  refine ⟨?_, ?_, ?_⟩
  · rcases legIndex with _ | li
    · exact hinv
    unfold moveParcelLeg
    dsimp only
    by_cases h0 : li < 0
    · rw [if_pos h0]; exact hinv
    rw [if_neg h0]
    rcases hp : findParcel st pid with _ | p
    · exact hinv
    dsimp only
    rcases tripId with _ | tid
    · dsimp only
      rcases hpt : p.trip with _ | ptid
      · dsimp only; exact hinv
      dsimp only
      rcases htr : findTrip st ptid with _ | tr
      · dsimp only; exact hinv
      dsimp only
      by_cases hb : li.toNat < tr.route.length
      · rw [if_pos hb]
        intro q hq t hqt tr' htr'
        have htr'' : findTrip st t = some tr' := htr'
        have hq' : q ∈ st.parcels.map
            (fun r => if r.id == pid then { r with legIndex := some li } else r) := hq
        rcases List.mem_map.mp hq' with ⟨r, hrmem, rfl⟩
        by_cases h : (r.id == pid) = true
        · rw [if_pos h] at hqt ⊢
          have hrp : r = p := findParcel_unique st pid p hnd hp r hrmem h
          subst hrp
          have hpt' : (some ptid : Option Nat) = some t := by rw [← hpt]; exact hqt
          have ht : t = ptid := (Option.some.inj hpt').symm
          subst ht
          have heq : tr' = tr := Option.some.inj (htr''.symm.trans htr)
          exact ⟨li, rfl, by omega, by rw [heq]; exact hb⟩
        · rw [if_neg h] at hqt ⊢
          exact hinv r hrmem t hqt tr' htr''
      · rw [if_neg hb]; exact hinv
    · dsimp only
      rcases htr : findTrip st tid with _ | tr
      · dsimp only; exact hinv
      dsimp only
      by_cases hb : li.toNat < tr.route.length
      · rw [if_pos hb]
        intro q hq t hqt tr' htr'
        have htr'' : findTrip st t = some tr' := htr'
        have hq' : q ∈ st.parcels.map
            (fun r => if r.id == pid then
              { r with trip := some tid, legIndex := some li } else r) := hq
        rcases List.mem_map.mp hq' with ⟨r, hrmem, rfl⟩
        by_cases h : (r.id == pid) = true
        · rw [if_pos h] at hqt ⊢
          have ht : t = tid := by
            have : (some tid : Option Nat) = some t := hqt
            exact (Option.some.inj this).symm
          subst ht
          have heq : tr' = tr := by
            rw [htr''] at htr
            exact Option.some.inj htr
          exact ⟨li, rfl, by omega, by rw [heq]; exact hb⟩
        · rw [if_neg h] at hqt ⊢
          exact hinv r hrmem t hqt tr' htr''
      · rw [if_neg hb]; exact hinv
  · unfold updateParcelStatus
    rcases hp : findParcel st pid with _ | p
    · exact hinv
    dsimp only
    exact inv_updParcel_of_preserve st pid _ (fun p => ⟨rfl, rfl⟩) hinv
  · unfold verifyParcelOtp
    rcases hp : findParcel st pid with _ | p
    · exact hinv
    dsimp only
    by_cases ho : p.receiverOtp ≠ otp
    · rw [if_pos ho]; exact hinv
    · rw [if_neg ho]
      exact inv_updParcel_of_preserve st pid _ (fun p => ⟨rfl, rfl⟩) hinv

theorem parcel_ops_preserve_leg_inv_witness :
    (stC8.parcels.map Parcel.id).Nodup ∧ ParcelLegInv stC8 ∧
    (ParcelLegInv (moveParcelLeg stC8 5 (some 1) (some 1)).2 ∧
      ParcelLegInv (updateParcelStatus stC8 5 "in-transit").2 ∧
      ParcelLegInv (verifyParcelOtp stC8 5 "111111").2) := by
  have hnd : (stC8.parcels.map Parcel.id).Nodup := by decide
  have hinv : ParcelLegInv stC8 := by
    intro p hp t hpt tr htr
    have hp' : p = parcelW ∨ p = parcelFree := by
      simpa [stC8] using hp
    rcases hp' with rfl | rfl
    · have ht : t = 1 := by
        have : (some 1 : Option Nat) = some t := hpt
        exact (Option.some.inj this).symm
      subst ht
      have : tr = tripC7 := by
        have h2 : findTrip stC8 1 = some tripC7 := rfl
        rw [h2] at htr
        exact Option.some.inj htr.symm
      subst this
      exact ⟨0, rfl, by omega, by simp [tripC7]⟩
    · exact absurd hpt (by simp [parcelFree])
  exact ⟨hnd, hinv,
    parcel_ops_preserve_leg_inv stC8 5 (some 1) (some 1) "in-transit" "111111" hnd hinv⟩

/-! ## C5: what `updateTrip` does to legs -/

theorem foldl_updRoute (st : St) (ls : List Leg) :
    ∀ (a b : Int) (r0 : List Leg),
      (ls.foldl (fun (acc : Int × Int × List Leg) (l : Leg) =>
        let r := updLeg st l
        (acc.1 + r.1, acc.2.1 + r.2.1, acc.2.2 ++ [r.2.2])) (a, b, r0)).2.2 =
      r0 ++ ls.map (fun l => (updLeg st l).2.2) := by
  induction ls with
  | nil => intro a b r0; simp
  | cons l ls ih =>
    intro a b r0
    rw [List.foldl_cons]
    dsimp only
    rw [ih]
    simp

theorem updLeg_details (st : St) (l : Leg) : ((updLeg st l).2.2).details = l.details := by
  unfold updLeg
  cases h : l.details.bind (fun rid => findEdge st rid) with
  | none => rfl
  | some e =>
    dsimp only
    split <;> rfl

theorem updLeg_leg (st : St) (l : Leg) : ((updLeg st l).2.2).leg = l.leg := by
  unfold updLeg
  cases h : l.details.bind (fun rid => findEdge st rid) with
  | none => rfl
  | some e =>
    dsimp only
    split <;> rfl

theorem updLeg_driver (st : St) (l : Leg) : ((updLeg st l).2.2).driver = l.driver := by
  unfold updLeg
  cases h : l.details.bind (fun rid => findEdge st rid) with
  | none => rfl
  | some e =>
    dsimp only
    split <;> rfl

theorem updLeg_splits (st : St) (l : Leg) :
    (((updLeg st l).2.2).driverSplit, ((updLeg st l).2.2).associationSplit) =
      (match l.details.bind (fun rid => findEdge st rid) with
        | some e => (e.driverSplit.getD l.driverSplit,
            e.associationSplit.getD l.associationSplit)
        | none => (l.driverSplit, l.associationSplit)) := by
  unfold updLeg
  cases h : l.details.bind (fun rid => findEdge st rid) with
  | none => rfl
  | some e =>
    dsimp only
    split <;> rfl

theorem findTrip_id (st : St) (tid : Nat) (tr : Trip) (h : findTrip st tid = some tr) :
    tr.id = tid := by
  have h' : st.trips.find? (fun t => t.id == tid) = some tr := h
  have := List.find?_some h'
  simpa using this

/-- C5 amended: `updateTrip` keeps every leg's `details`, `leg` number and
`driver` exactly as they were, but re-copies `driverSplit`/`associationSplit`
from the currently referenced route edge whenever that edge resolves and
carries the field (and recomputes the aggregates); it never adds, removes or
reorders legs. -/
theorem updateTrip_leg_identity (st : St) (tid : Nat) (o? d? : Option String)
    (tr : Trip) (htr : findTrip st tid = some tr) :
    ∃ tr', (updateTrip st tid o? d?).1 = Except.ok tr' ∧
      findTrip (updateTrip st tid o? d?).2 tid = some tr' ∧
      tr'.route.map Leg.details = tr.route.map Leg.details ∧
      tr'.route.map Leg.leg = tr.route.map Leg.leg ∧
      tr'.route.map Leg.driver = tr.route.map Leg.driver ∧
      tr'.route.map (fun l => (l.driverSplit, l.associationSplit)) =
        tr.route.map (fun l =>
          match l.details.bind (fun rid => findEdge st rid) with
          | some e => (e.driverSplit.getD l.driverSplit,
              e.associationSplit.getD l.associationSplit)
          | none => (l.driverSplit, l.associationSplit)) := by
  unfold updateTrip
  rw [htr]
  dsimp only
  refine ⟨_, rfl, ?_, ?_, ?_, ?_, ?_⟩
  · rw [findTrip_updTrip st tid _ (fun t ht => by
      rw [ht]; exact findTrip_id st tid tr htr), htr]
    rfl
  · rw [foldl_updRoute]
    simp only [List.nil_append, List.map_map]
    have : (Leg.details ∘ fun l => (updLeg st l).2.2) = Leg.details :=
      funext (fun l => updLeg_details st l)
    rw [this]
  · rw [foldl_updRoute]
    simp only [List.nil_append, List.map_map]
    have : (Leg.leg ∘ fun l => (updLeg st l).2.2) = Leg.leg :=
      funext (fun l => updLeg_leg st l)
    rw [this]
  · rw [foldl_updRoute]
    simp only [List.nil_append, List.map_map]
    have : (Leg.driver ∘ fun l => (updLeg st l).2.2) = Leg.driver :=
      funext (fun l => updLeg_driver st l)
    rw [this]
  · rw [foldl_updRoute]
    simp only [List.nil_append, List.map_map]
    have : ((fun l : Leg => (l.driverSplit, l.associationSplit)) ∘
        fun l => (updLeg st l).2.2) =
        (fun l : Leg =>
          match l.details.bind (fun rid => findEdge st rid) with
          | some e => (e.driverSplit.getD l.driverSplit,
              e.associationSplit.getD l.associationSplit)
          | none => (l.driverSplit, l.associationSplit)) :=
      funext (fun l => updLeg_splits st l)
    rw [this]

/-- C5 counterexample: updating a trip (with an empty body) rewrites the leg's
stored splits from the currently referenced route edge — the leg's
`driverSplit`/`associationSplit` do NOT stay as they were at creation. -/
theorem updateTrip_splits_cex :
    tripC5.route.map (fun l => (l.driverSplit, l.associationSplit)) = [(40, 60)] ∧
    (updateTrip stC5 3 none none).1 =
      Except.ok ⟨3, "A", "B", 3, 10, [⟨1, 45, 55, some 1, none⟩]⟩ ∧
    findTrip (updateTrip stC5 3 none none).2 3 =
      some ⟨3, "A", "B", 3, 10, [⟨1, 45, 55, some 1, none⟩]⟩ ∧
    ((55 : Int), (45 : Int)) ≠ ((40 : Int), (60 : Int)) := by
  refine ⟨by decide, rfl, rfl, by decide⟩

theorem updateTrip_leg_identity_witness :
    findTrip stC5 3 = some tripC5 ∧
    (∃ tr', (updateTrip stC5 3 none none).1 = Except.ok tr' ∧
      findTrip (updateTrip stC5 3 none none).2 3 = some tr' ∧
      tr'.route.map Leg.details = tripC5.route.map Leg.details ∧
      tr'.route.map Leg.leg = tripC5.route.map Leg.leg ∧
      tr'.route.map Leg.driver = tripC5.route.map Leg.driver ∧
      tr'.route.map (fun l => (l.driverSplit, l.associationSplit)) =
        tripC5.route.map (fun l =>
          match l.details.bind (fun rid => findEdge stC5 rid) with
          | some e => (e.driverSplit.getD l.driverSplit,
              e.associationSplit.getD l.associationSplit)
          | none => (l.driverSplit, l.associationSplit))) :=
  ⟨rfl, updateTrip_leg_identity stC5 3 none none tripC5 rfl⟩

/-! ## Walks and shortest hop distances -/

theorem walk_singleton (es : List Edge) (x : String) : Walk es x x [x] :=
  ⟨rfl, rfl, List.chain'_singleton x⟩

theorem walk_ne_nil (es : List Edge) (u v : String) (l : List String)
    (h : Walk es u v l) : l ≠ [] := by
  intro hl
  rw [hl] at h
  exact Option.noConfusion h.1

theorem walk_length_pos (es : List Edge) (u v : String) (l : List String)
    (h : Walk es u v l) : 1 ≤ l.length :=
  List.length_pos.mpr (walk_ne_nil es u v l h)

theorem walk_extend (es : List Edge) (s u v : String) (l : List String)
    (h : Walk es s u l) (hv : v ∈ adj es u) : Walk es s v (l ++ [v]) := by
  rcases h with ⟨h1, h2, h3⟩
  refine ⟨?_, List.getLast?_concat l, ?_⟩
  · cases l with
    | nil => exact Option.noConfusion h1
    | cons a l₂ => exact h1
  · rw [List.chain'_append]
    refine ⟨h3, List.chain'_singleton v, ?_⟩
    intro x hx y hy
    have hx' : u = x := by rw [h2] at hx; simpa using hx
    have hy' : v = y := by simpa using hy
    rw [← hx', ← hy']
    exact hv

theorem dist_exists (es : List Edge) (s v : String) (h : Reach es s v) :
    ∃ n, IsDist es s v n := by
  classical
  rcases h with ⟨l, hw⟩
  have hP : ∃ n, ∃ l, Walk es s v l ∧ l.length = n + 1 :=
    ⟨l.length - 1, l, hw, by have := walk_length_pos es s v l hw; omega⟩
  refine ⟨Nat.find hP, Nat.find_spec hP, ?_⟩
  intro m hm
  have hmem : ∃ l, Walk es s v l ∧ l.length = (m.length - 1) + 1 :=
    ⟨m, hm, by have := walk_length_pos es s v m hm; omega⟩
  have := Nat.find_min' hP hmem
  have := walk_length_pos es s v m hm
  omega

theorem dist_unique (es : List Edge) (s v : String) (n m : Nat)
    (hn : IsDist es s v n) (hm : IsDist es s v m) : n = m := by
  rcases hn.1 with ⟨l, hl, hlen⟩
  rcases hm.1 with ⟨l2, hl2, hlen2⟩
  have h1 := hn.2 l2 hl2
  have h2 := hm.2 l hl
  omega

theorem dist_start (es : List Edge) (s : String) : IsDist es s s 0 := by
  refine ⟨⟨[s], walk_singleton es s, rfl⟩, ?_⟩
  intro l hl
  have := walk_length_pos es s s l hl
  omega

theorem dist_zero (es : List Edge) (s v : String) (h : IsDist es s v 0) : v = s := by
  rcases h.1 with ⟨l, ⟨h1, h2, _⟩, hlen⟩
  rcases List.length_eq_one.mp hlen with ⟨x, rfl⟩
  have hx1 : x = s := by simpa using h1
  have hx2 : x = v := by simpa using h2
  rw [← hx1, hx2]

/-- Last-step decomposition of a walk of length at least 2. -/
theorem walk_decomp (es : List Edge) (s v : String) (l : List String)
    (hw : Walk es s v l) (hlen : 2 ≤ l.length) :
    ∃ u l₂, l = l₂ ++ [v] ∧ Walk es s u l₂ ∧ v ∈ adj es u ∧
      l₂.length = l.length - 1 := by
  rcases hw with ⟨h1, h2, h3⟩
  have hne : l ≠ [] := by intro h; rw [h] at hlen; simp at hlen
  have hlast : l.getLast hne = v := by
    have := List.getLast?_eq_getLast l hne
    rw [h2] at this
    exact (Option.some.inj this).symm
  have hsplit : l.dropLast ++ [v] = l := by
    rw [← hlast]
    exact List.dropLast_append_getLast hne
  have hlen2 : l.dropLast.length = l.length - 1 := List.length_dropLast l
  have hne2 : l.dropLast ≠ [] := by
    intro h
    rw [h] at hlen2
    simp at hlen2
    omega
  have hch : l.dropLast.Chain' (fun a b => b ∈ adj es a) ∧
      ∀ x ∈ l.dropLast.getLast?, ∀ y ∈ ([v] : List String).head?, y ∈ adj es x := by
    have h3' := h3
    rw [← hsplit, List.chain'_append] at h3'
    exact ⟨h3'.1, h3'.2.2⟩
  have hlast2 := List.getLast?_eq_getLast l.dropLast hne2
  refine ⟨l.dropLast.getLast hne2, l.dropLast, hsplit.symm, ⟨?_, hlast2, hch.1⟩, ?_, hlen2⟩
  · rcases hl2 : l.dropLast with _ | ⟨a, rest⟩
    · exact absurd hl2 hne2
    · rw [hl2] at hsplit
      have hha : l.head? = some a := by rw [← hsplit]; rfl
      rw [hha] at h1
      exact h1
  · exact hch.2 _ hlast2 v rfl

/-- A rank at distance `k + 1` has an in-neighbour at distance `k`. -/
theorem dist_decomp (es : List Edge) (s v : String) (k : Nat)
    (h : IsDist es s v (k + 1)) : ∃ u, v ∈ adj es u ∧ IsDist es s u k := by
  rcases h.1 with ⟨l, hw, hlen⟩
  rcases walk_decomp es s v l hw (by omega) with ⟨u, l₂, hsp, hwu, hadj, hlen2⟩
  rcases dist_exists es s u ⟨l₂, hwu⟩ with ⟨j, hdu⟩
  have hj1 : j + 1 ≤ l₂.length := hdu.2 l₂ hwu
  rcases hdu.1 with ⟨lw, hlw, hlwlen⟩
  have hext := walk_extend es s u v lw hlw hadj
  have := h.2 _ hext
  rw [List.length_append] at this
  have hjk : j = k := by
    simp only [List.length_singleton] at this
    omega
  exact ⟨u, hadj, hjk ▸ hdu⟩

/-- Under a fully processed predecessor map, key-hood propagates along walks. -/
theorem walk_mem_of_processed (es : List Edge) (pm : PrevMap)
    (hproc : ∀ u ∈ keysP pm, ∀ w ∈ adj es u, w ∈ keysP pm) :
    ∀ (l : List String) (u v : String), u ∈ keysP pm → Walk es u v l →
      v ∈ keysP pm := by
  intro l
  induction l with
  | nil => intro u v _ hw; exact absurd rfl (walk_ne_nil es u v [] hw)
  | cons a rest ih =>
    intro u v hu hw
    rcases hw with ⟨h1, h2, h3⟩
    have ha : a = u := Option.some.inj h1
    cases rest with
    | nil =>
      have hv : a = v := by simpa using h2
      rw [← hv, ha]
      exact hu
    | cons b rest2 =>
      have hsplit := List.chain'_cons.mp h3
      have hb : b ∈ keysP pm := hproc a (ha ▸ hu) b hsplit.1
      refine ih b v hb ⟨rfl, ?_, hsplit.2⟩
      rw [← List.getLast?_cons_cons]
      exact h2

theorem not_reach_nil (o d : String) (hne : o ≠ d) : ¬ Reach [] o d := by
  rintro ⟨l, h1, h2, h3⟩
  cases l with
  | nil => exact Option.noConfusion h1
  | cons x xs =>
    cases xs with
    | nil =>
      have hx1 : x = o := Option.some.inj h1
      have hx2 : x = d := by simpa using h2
      exact hne (hx1 ▸ hx2)
    | cons y ys =>
      have := (List.chain'_cons.mp h3).1
      simp [adj] at this

/-! ## Predecessor map bookkeeping -/

theorem keysP_append (pm ext : PrevMap) :
    keysP (pm ++ ext) = keysP pm ++ keysP ext := by
  simp [keysP]

theorem lookupP_isSome_iff (pm : PrevMap) (v : String) :
    (lookupP pm v).isSome ↔ v ∈ keysP pm := by
  rw [lookupP, keysP, Option.isSome_map', List.find?_isSome]
  constructor
  · rintro ⟨x, hx, hpx⟩
    exact List.mem_map.mpr ⟨x, hx, by simpa using hpx⟩
  · intro h
    rcases List.mem_map.mp h with ⟨x, hx, hfx⟩
    exact ⟨x, hx, by simpa using hfx⟩

theorem lookupP_mem (pm : PrevMap) (v : String) (po : Option String)
    (h : lookupP pm v = some po) : (v, po) ∈ pm := by
  unfold lookupP at h
  cases hf : pm.find? (fun x => x.1 == v) with
  | none => rw [hf] at h; exact Option.noConfusion h
  | some x =>
    rw [hf] at h
    have hx2 : x.2 = po := by simpa using h
    have hmem := List.mem_of_find?_eq_some hf
    have hx1 := List.find?_some hf
    have hx : x = (v, po) := by
      rcases x with ⟨x1, x2⟩
      simp only at hx1 hx2
      have : x1 = v := by simpa using hx1
      rw [this, hx2]
    rw [← hx]
    exact hmem

theorem mem_keysP_lookup (pm : PrevMap) (v : String) (h : v ∈ keysP pm) :
    ∃ po, lookupP pm v = some po := by
  have := (lookupP_isSome_iff pm v).mpr h
  exact Option.isSome_iff_exists.mp this

theorem lookupP_append_left (pm ext : PrevMap) (v : String) (x : Option String)
    (h : lookupP pm v = some x) : lookupP (pm ++ ext) v = some x := by
  unfold lookupP at h ⊢
  rw [List.find?_append]
  cases hf : pm.find? (fun y => y.1 == v) with
  | none => rw [hf] at h; exact Option.noConfusion h
  | some y =>
    rw [hf] at h
    simp [h]

/-! ## The neighbour-expansion fold -/

theorem bfsStepFold_mem (c : String) (q : List String) (pm : PrevMap) (n : String)
    (h : (lookupP pm n).isSome) : bfsStepFold c (q, pm) n = (q, pm) := by
  unfold bfsStepFold
  dsimp only
  rw [if_pos h]

theorem bfsStepFold_not_mem (c : String) (q : List String) (pm : PrevMap)
    (n : String) (h : ¬(lookupP pm n).isSome) :
    bfsStepFold c (q, pm) n = (q ++ [n], pm ++ [(n, some c)]) := by
  unfold bfsStepFold
  dsimp only
  rw [if_neg h]

theorem fold_insert_spec (c : String) (ns : List String) :
    ∀ (q0 : List String) (pm0 : PrevMap),
      ∃ news : List String,
        (ns.foldl (bfsStepFold c) (q0, pm0)).1 = q0 ++ news ∧
        (ns.foldl (bfsStepFold c) (q0, pm0)).2 =
          pm0 ++ news.map (fun n => (n, some c)) ∧
        news.Nodup ∧
        (∀ n ∈ news, n ∈ ns ∧ n ∉ keysP pm0) ∧
        (∀ n ∈ ns, n ∈ keysP pm0 ∨ n ∈ news) := by
  induction ns with
  | nil =>
    intro q0 pm0
    exact ⟨[], by simp, by simp, List.nodup_nil, by simp, by simp⟩
  | cons n ns ih =>
    intro q0 pm0
    rw [List.foldl_cons]
    by_cases hm : (lookupP pm0 n).isSome
    · rw [bfsStepFold_mem c q0 pm0 n hm]
      rcases ih q0 pm0 with ⟨news, h1, h2, h3, h4, h5⟩
      refine ⟨news, h1, h2, h3, ?_, ?_⟩
      · intro m hmem
        exact ⟨List.mem_cons_of_mem n (h4 m hmem).1, (h4 m hmem).2⟩
      · intro m hmem
        rcases List.mem_cons.mp hmem with rfl | hmem'
        · exact Or.inl ((lookupP_isSome_iff pm0 m).mp hm)
        · exact h5 m hmem'
    · rw [bfsStepFold_not_mem c q0 pm0 n hm]
      rcases ih (q0 ++ [n]) (pm0 ++ [(n, some c)]) with ⟨news, h1, h2, h3, h4, h5⟩
      have hnotk : n ∉ keysP pm0 := fun hk => hm ((lookupP_isSome_iff pm0 n).mpr hk)
      have hknew : keysP (pm0 ++ [(n, some c)]) = keysP pm0 ++ [n] := keysP_append _ _
      refine ⟨n :: news, ?_, ?_, ?_, ?_, ?_⟩
      · rw [h1, List.append_assoc]
        rfl
      · rw [h2, List.map_cons, List.append_assoc]
        rfl
      · refine List.Nodup.cons ?_ h3
        intro hn
        have := (h4 n hn).2
        rw [hknew] at this
        exact this (List.mem_append_right _ (List.mem_singleton_self n))
      · intro m hmem
        rcases List.mem_cons.mp hmem with rfl | hmem'
        · exact ⟨List.mem_cons_self m ns, hnotk⟩
        · have h4' := h4 m hmem'
          refine ⟨List.mem_cons_of_mem n h4'.1, fun hk => h4'.2 ?_⟩
          rw [hknew]
          exact List.mem_append_left _ hk
      · intro m hmem
        rcases List.mem_cons.mp hmem with rfl | hmem'
        · exact Or.inr (List.mem_cons_self m news)
        · rcases h5 m hmem' with hk | hn
          · rw [hknew] at hk
            rcases List.mem_append.mp hk with hk' | hk'
            · exact Or.inl hk'
            · exact Or.inr (by rw [List.mem_singleton.mp hk']; exact List.mem_cons_self n news)
          · exact Or.inr (List.mem_cons_of_mem n hn)

theorem adj_sub_universe (es : List Edge) (s c w : String) (hw : w ∈ adj es c) :
    w ∈ nodeUniverse es s := by
  unfold adj at hw
  rcases List.mem_map.mp hw with ⟨e, he, rfl⟩
  have hes : e ∈ es := List.mem_of_mem_filter he
  unfold nodeUniverse
  exact List.mem_dedup.mpr (List.mem_cons_of_mem _ (List.mem_map_of_mem _ hes))

theorem keys_length_le (es : List Edge) (s : String) (pm : PrevMap)
    (knd : (keysP pm).Nodup) (ksub : ∀ v ∈ keysP pm, v ∈ nodeUniverse es s) :
    (keysP pm).length ≤ (nodeUniverse es s).length :=
  (knd.subperm ksub).length_le

theorem universe_pos (es : List Edge) (s : String) :
    1 ≤ (nodeUniverse es s).length := by
  have : s ∈ nodeUniverse es s :=
    List.mem_dedup.mpr (List.mem_cons_self s _)
  exact List.length_pos.mpr (List.ne_nil_of_mem this)

/-- A rank first discovered while expanding a rank at distance `k` is at
distance exactly `k + 1`. -/
theorem news_dist (es : List Edge) (s c n : String) (k : Nat) (pm : PrevMap)
    (hck : IsDist es s c k)
    (hcomp : ∀ v j, IsDist es s v j → j ≤ k → v ∈ keysP pm)
    (hadj : n ∈ adj es c) (hnk : n ∉ keysP pm) : IsDist es s n (k + 1) := by
  rcases hck.1 with ⟨l, hl, hlen⟩
  have hext := walk_extend es s c n l hl hadj
  refine ⟨⟨l ++ [n], hext, by simp [hlen]⟩, ?_⟩
  intro l2 hl2
  by_contra hcon
  push_neg at hcon
  rcases dist_exists es s n ⟨l2, hl2⟩ with ⟨j, hdn⟩
  have hle : j + 1 ≤ l2.length := hdn.2 l2 hl2
  exact hnk (hcomp n j hdn (by omega))

/-- Normalised frontier shape at the moment `c` is dequeued: `c` sits at some
level `k`, the remaining queue is a level-`k` block then a level-`k + 1`
block, and the completeness facts hold at `k`. -/
theorem level_normalize (es : List Edge) (s goal c : String) (rest : List String)
    (pm : PrevMap) (inv : BfsInv es s goal (c :: rest) pm) :
    ∃ k qa qb, rest = qa ++ qb ∧ IsDist es s c k ∧
      (∀ v ∈ qa, IsDist es s v k) ∧ (∀ v ∈ qb, IsDist es s v (k + 1)) ∧
      (∀ v j, IsDist es s v j → j ≤ k → v ∈ keysP pm) ∧
      (∀ v ∈ keysP pm, ∃ j, j ≤ k + 1 ∧ IsDist es s v j) ∧
      (∀ v ∈ keysP pm, IsDist es s v (k + 1) → v ∈ c :: rest) := by
  rcases inv.level with ⟨k, qa, qb, hsplit, hqa, hqb, hcomp, hkb, hkq⟩
  cases qa with
  | cons a qa2 =>
    rw [List.cons_append] at hsplit
    have hca : c = a := (List.cons.injEq _ _ _ _ ▸ hsplit).1
    have hrest : rest = qa2 ++ qb := (List.cons.injEq _ _ _ _ ▸ hsplit).2
    refine ⟨k, qa2, qb, hrest, ?_, ?_, hqb, hcomp, hkb, ?_⟩
    · rw [hca]
      exact hqa a (List.mem_cons_self a qa2)
    · intro v hv
      exact hqa v (List.mem_cons_of_mem a hv)
    · intro v hv hd
      exact hkq v hv hd
  | nil =>
    rw [List.nil_append] at hsplit
    have hcd : IsDist es s c (k + 1) := by
      refine hqb c ?_
      rw [← hsplit]
      exact List.mem_cons_self c rest
    have hcomp2 : ∀ v j, IsDist es s v j → j ≤ k + 1 → v ∈ keysP pm := by
      intro v j hv hj
      rcases Nat.lt_or_ge j (k + 1) with hlt | hge
      · exact hcomp v j hv (by omega)
      · have hj1 : j = k + 1 := by omega
        subst hj1
        rcases dist_decomp es s v k hv with ⟨u, hadj, hu⟩
        have huk : u ∈ keysP pm := hcomp u k hu (le_refl k)
        have hunq : u ∉ c :: rest := by
          intro hmem
          rw [hsplit] at hmem
          have := hqb u hmem
          have := dist_unique es s u _ _ hu this
          omega
        exact inv.processed u huk hunq v hadj
    refine ⟨k + 1, rest, [], by simp, hcd, ?_, by simp, hcomp2, ?_, ?_⟩
    · intro v hv
      refine hqb v ?_
      rw [← hsplit]
      exact List.mem_cons_of_mem c hv
    · intro v hv
      rcases hkb v hv with ⟨j, hj, hd⟩
      exact ⟨j, by omega, hd⟩
    · intro v hv hd
      rcases hkb v hv with ⟨j, hj, hd2⟩
      have := dist_unique es s v _ _ hd hd2
      omega

/-- One BFS iteration (dequeue `c ≠ goal`, expand its neighbours) preserves the
invariant, growing queue and key set by the same count of newly found ranks. -/
theorem bfsInv_step (es : List Edge) (s goal c : String) (rest : List String)
    (pm : PrevMap) (inv : BfsInv es s goal (c :: rest) pm) (hcg : c ≠ goal) :
    ∃ m : Nat,
      ((adj es c).foldl (bfsStepFold c) (rest, pm)).1.length = rest.length + m ∧
      (keysP ((adj es c).foldl (bfsStepFold c) (rest, pm)).2).length =
        (keysP pm).length + m ∧
      BfsInv es s goal ((adj es c).foldl (bfsStepFold c) (rest, pm)).1
        ((adj es c).foldl (bfsStepFold c) (rest, pm)).2 := by
  rcases fold_insert_spec c (adj es c) rest pm with ⟨news, h1, h2, h3, h4, h5⟩
  rcases level_normalize es s goal c rest pm inv with
    ⟨k, qa, qb, hrest, hck, hqa, hqb, hcomp, hkb, hkq⟩
  have hmapfst : ∀ (l : List String), keysP (l.map (fun n => (n, some c))) = l := by
    intro l
    induction l with
    | nil => rfl
    | cons a t ih =>
      show a :: keysP (t.map (fun n => (n, some c))) = a :: t
      rw [ih]
  have hkeys2 : keysP (pm ++ List.map (fun n => (n, some c)) news) =
      keysP pm ++ news := by
    rw [keysP_append, hmapfst]
  have hkeys : keysP ((adj es c).foldl (bfsStepFold c) (rest, pm)).2 =
      keysP pm ++ news := by
    rw [h2]
    exact hkeys2
  have hnewsd : ∀ n ∈ news, IsDist es s n (k + 1) := by
    intro n hn
    exact news_dist es s c n k pm hck hcomp (h4 n hn).1 (h4 n hn).2
  have hrestk : ∀ v ∈ rest, v ∈ keysP pm := fun v hv =>
    inv.qsub v (List.mem_cons_of_mem c hv)
  have hdisj : ∀ a ∈ keysP pm, a ∉ news := fun a ha hn => (h4 a hn).2 ha
  refine ⟨news.length, by rw [h1, List.length_append], by rw [hkeys, List.length_append], ?_⟩
  refine ⟨?_, ?_, ?_, ?_, ?_, ?_, ?_, ?_, ?_, ?_⟩
  · -- keys nodup
    rw [hkeys]
    exact inv.knd.append h3 (fun a ha hb => (hdisj a ha) hb)
  · -- queue nodup
    rw [h1]
    refine ((List.nodup_cons.mp inv.qnd).2).append h3 ?_
    intro a ha hb
    exact hdisj a (hrestk a ha) hb
  · -- queue ⊆ keys
    rw [h1, hkeys]
    intro v hv
    rcases List.mem_append.mp hv with hv' | hv'
    · exact List.mem_append_left _ (hrestk v hv')
    · exact List.mem_append_right _ hv'
  · -- keys ⊆ universe
    rw [hkeys]
    intro v hv
    rcases List.mem_append.mp hv with hv' | hv'
    · exact inv.ksub v hv'
    · exact adj_sub_universe es s c v (h4 v hv').1
  · -- start entry
    rw [h2]
    exact lookupP_append_left pm _ s none inv.startmem
  · -- null parents are only the start
    rw [h2]
    intro v hv
    rcases List.mem_append.mp hv with hv' | hv'
    · exact inv.nones v hv'
    · rcases List.mem_map.mp hv' with ⟨n, _, heq⟩
      exact Option.noConfusion (congrArg Prod.snd heq)
  · -- parent entries
    rw [h2, hkeys2]
    intro v u hv
    rcases List.mem_append.mp hv with hv' | hv'
    · rcases inv.parent v u hv' with ⟨p1, p2, p3⟩
      exact ⟨p1, List.mem_append_left _ p2, p3⟩
    · rcases List.mem_map.mp hv' with ⟨n, hn, heq⟩
      injection heq with hvn huc
      have huc' : c = u := Option.some.inj huc
      subst hvn
      subst huc'
      refine ⟨(h4 _ hn).1,
        List.mem_append_left _ (inv.qsub c (List.mem_cons_self c rest)), ?_⟩
      intro nn hnn
      have hnnk : nn = k := dist_unique es s c nn k hnn hck
      subst hnnk
      exact hnewsd _ hn
  · -- level structure
    rw [h1, hkeys, hrest]
    refine ⟨k, qa, qb ++ news, by rw [List.append_assoc], hqa, ?_, ?_, ?_, ?_⟩
    · intro v hv
      rcases List.mem_append.mp hv with hv' | hv'
      · exact hqb v hv'
      · exact hnewsd v hv'
    · intro v j hv hj
      exact List.mem_append_left _ (hcomp v j hv hj)
    · intro v hv
      rcases List.mem_append.mp hv with hv' | hv'
      · exact hkb v hv'
      · exact ⟨k + 1, le_refl _, hnewsd v hv'⟩
    · intro v hv hd
      rcases List.mem_append.mp hv with hv' | hv'
      · have := hkq v hv' hd
        rcases List.mem_cons.mp this with rfl | hvr
        · have := dist_unique es s v _ _ hck hd
          omega
        · rw [hrest] at hvr
          exact List.mem_append_left _ hvr
      · exact List.mem_append_right _ hv'
  · -- processed ranks have fully known neighbourhoods
    rw [h1, hkeys]
    intro u hu hunq w hw
    rcases List.mem_append.mp hu with hu' | hu'
    · by_cases huc : u = c
      · subst huc
        rcases h5 w hw with hk | hn
        · exact List.mem_append_left _ hk
        · exact List.mem_append_right _ hn
      · have hunc : u ∉ c :: rest := by
          intro hmem
          rcases List.mem_cons.mp hmem with rfl | hmem'
          · exact huc rfl
          · exact hunq (List.mem_append_left _ hmem')
        exact List.mem_append_left _ (inv.processed u hu' hunc w hw)
    · exact absurd (List.mem_append_right rest hu') hunq
  · -- the goal, once known, stays queued
    rw [h1, hkeys]
    intro hg
    rcases List.mem_append.mp hg with hg' | hg'
    · have := inv.goalq hg'
      rcases List.mem_cons.mp this with hgc | hgr
      · exact absurd hgc.symm hcg
      · exact List.mem_append_left _ hgr
    · exact List.mem_append_right _ hg'

theorem bfsInv_init (es : List Edge) (s goal : String) :
    BfsInv es s goal [s] [(s, none)] := by
  have hkeys : keysP [(s, none)] = [s] := rfl
  have hlook : lookupP [(s, none)] s = some none := by
    unfold lookupP
    rw [List.find?_cons_of_pos _ (by simp)]
    rfl
  refine ⟨?_, ?_, ?_, ?_, hlook, ?_, ?_, ?_, ?_, ?_⟩
  · rw [hkeys]; exact List.nodup_singleton s
  · exact List.nodup_singleton s
  · intro v hv; rw [hkeys]; exact hv
  · intro v hv
    rw [hkeys] at hv
    rw [List.mem_singleton.mp hv]
    exact List.mem_dedup.mpr (List.mem_cons_self s _)
  · intro v hv
    have := List.mem_singleton.mp hv
    exact congrArg Prod.fst this
  · intro v u hv
    have := List.mem_singleton.mp hv
    exact Option.noConfusion (congrArg Prod.snd this)
  · refine ⟨0, [s], [], rfl, ?_, by simp, ?_, ?_, ?_⟩
    · intro v hv
      rw [List.mem_singleton.mp hv]
      exact dist_start es s
    · intro v j hd hj
      have hj0 : j = 0 := by omega
      subst hj0
      rw [hkeys, dist_zero es s v hd]
      exact List.mem_singleton_self s
    · intro v hv
      rw [hkeys] at hv
      rw [List.mem_singleton.mp hv]
      exact ⟨0, by omega, dist_start es s⟩
    · intro v hv hd
      rw [hkeys] at hv
      rw [List.mem_singleton.mp hv] at hd
      have := dist_unique es s s _ _ hd (dist_start es s)
      omega
  · intro u hu hunq
    rw [hkeys] at hu
    exact absurd (by rw [List.mem_singleton.mp hu]; exact List.mem_singleton_self s) hunq
  · intro hg
    rw [hkeys] at hg
    rw [List.mem_singleton.mp hg]
    exact List.mem_singleton_self s

/-- The fueled BFS loop, started in an invariant state with enough fuel, never
exhausts its fuel and is both sound and complete: on `true` the predecessor
map is well-formed and contains the goal, on `false` the goal is unreachable. -/
theorem bfsAux_spec (es : List Edge) (s goal : String) :
    ∀ (fuel : Nat) (q : List String) (pm : PrevMap),
      BfsInv es s goal q pm →
      q.length + 2 * ((nodeUniverse es s).length - (keysP pm).length) < fuel →
      (∃ pm2, bfsAux (adj es) goal fuel q pm = some (true, pm2) ∧
        PrevOk es s pm2 ∧ goal ∈ keysP pm2) ∨
      (∃ pm2, bfsAux (adj es) goal fuel q pm = some (false, pm2) ∧
        ¬ Reach es s goal) := by
  intro fuel
  induction fuel with
  | zero => intro q pm _ hf; omega
  | succ fuel ih =>
    intro q pm inv hf
    cases q with
    | nil =>
      refine Or.inr ⟨pm, rfl, ?_⟩
      intro hre
      have hproc : ∀ u ∈ keysP pm, ∀ w ∈ adj es u, w ∈ keysP pm := by
        intro u hu w hw
        exact inv.processed u hu (List.not_mem_nil u) w hw
      rcases hre with ⟨l, hw⟩
      have hs : s ∈ keysP pm :=
        List.mem_map.mpr ⟨(s, none), lookupP_mem pm s none inv.startmem, rfl⟩
      have hg : goal ∈ keysP pm := walk_mem_of_processed es pm hproc l s goal hs hw
      exact (List.not_mem_nil goal) (inv.goalq hg)
    | cons c rest =>
      by_cases hcg : c = goal
      · refine Or.inl ⟨pm, ?_, ?_, ?_⟩
        · unfold bfsAux
          rw [if_pos (by simp [hcg])]
        · rcases inv.level with ⟨k, qa, qb, _, _, _, _, hkb, _⟩
          exact ⟨inv.knd, inv.startmem, inv.nones, inv.parent,
            fun v hv => (hkb v hv).imp (fun j hj => hj.2)⟩
        · rw [← hcg]
          exact inv.qsub c (List.mem_cons_self c rest)
      · rcases bfsInv_step es s goal c rest pm inv hcg with ⟨m, hq1, hq2, inv2⟩
        have hstep : bfsAux (adj es) goal (fuel + 1) (c :: rest) pm =
            bfsAux (adj es) goal fuel
              ((adj es c).foldl (bfsStepFold c) (rest, pm)).1
              ((adj es c).foldl (bfsStepFold c) (rest, pm)).2 := by
          conv_lhs => rw [bfsAux.eq_def]
          dsimp only
          rw [if_neg (by simp [hcg])]
        rw [hstep]
        apply ih _ _ inv2
        have hKU := keys_length_le es s _ inv2.knd inv2.ksub
        rw [hq2] at hKU
        rw [hq1, hq2]
        simp only [List.length_cons] at hf
        omega

/-- Reconstructing the predecessor chain from any key at distance `n` yields,
for every sufficient fuel, the same list: `n + 1` distinct known ranks whose
reversal is a walk from the start. -/
theorem chain_spec (es : List Edge) (s : String) (pm : PrevMap)
    (ok : PrevOk es s pm) :
    ∀ (n : Nat) (v : String), v ∈ keysP pm → IsDist es s v n →
      ∃ l, (∀ fuel, n + 1 ≤ fuel → chainAux pm fuel v = l) ∧
        l.length = n + 1 ∧ l.Nodup ∧ (∀ w ∈ l, w ∈ keysP pm) ∧
        (∀ w ∈ l, ∃ j, j ≤ n ∧ IsDist es s w j) ∧
        Walk es s v l.reverse := by
  intro n
  induction n with
  | zero =>
    intro v hv hd
    have hvs : v = s := dist_zero es s v hd
    refine ⟨[v], ?_, rfl, List.nodup_singleton v, ?_, ?_, ?_⟩
    · intro fuel hfuel
      cases fuel with
      | zero => omega
      | succ f =>
        show chainAux pm (f + 1) v = [v]
        unfold chainAux
        rw [hvs, ok.startmem]
    · intro w hw
      rw [List.mem_singleton.mp hw]
      exact hv
    · intro w hw
      rw [List.mem_singleton.mp hw]
      exact ⟨0, le_refl 0, hd⟩
    · rw [hvs]
      exact walk_singleton es s
  | succ n ihn =>
    intro v hv hd
    rcases mem_keysP_lookup pm v hv with ⟨po, hpo⟩
    cases po with
    | none =>
      have hvs : v = s := ok.nones v (lookupP_mem pm v none hpo)
      have h0 : IsDist es s v 0 := by rw [hvs]; exact dist_start es s
      have := dist_unique es s v _ _ hd h0
      omega
    | some u =>
      have hmem := lookupP_mem pm v (some u) hpo
      rcases ok.parent v u hmem with ⟨hadj, hukeys, himp⟩
      rcases ok.reach u hukeys with ⟨j, hdu⟩
      have hdv := himp j hdu
      have hj : j + 1 = n + 1 := dist_unique es s v _ _ hdv hd
      have hjn : n = j := by omega
      subst hjn
      rcases ihn u hukeys hdu with ⟨l, hchain, hlen, hnd, hkeys, hdists, hwalk⟩
      refine ⟨v :: l, ?_, by simp [hlen], ?_, ?_, ?_, ?_⟩
      · intro fuel hfuel
        cases fuel with
        | zero => omega
        | succ f =>
          show chainAux pm (f + 1) v = v :: l
          unfold chainAux
          rw [hpo]
          dsimp only
          rw [hchain f (by omega)]
      · rw [List.nodup_cons]
        refine ⟨?_, hnd⟩
        intro hvl
        rcases hdists v hvl with ⟨j2, hj2, hdv2⟩
        have := dist_unique es s v _ _ hd hdv2
        omega
      · intro w hw
        rcases List.mem_cons.mp hw with rfl | hw'
        · exact hv
        · exact hkeys w hw'
      · intro w hw
        rcases List.mem_cons.mp hw with rfl | hw'
        · exact ⟨n + 1, le_refl _, hd⟩
        · rcases hdists w hw' with ⟨j2, hj2, hdw⟩
          exact ⟨j2, by omega, hdw⟩
      · rw [List.reverse_cons]
        exact walk_extend es s u v l.reverse hwalk hadj

theorem bfsRun_found (es : List Edge) (o d : String) (h : Reach es o d) :
    ∃ pm2, bfsRun es o d = (true, pm2) ∧ PrevOk es o pm2 ∧ d ∈ keysP pm2 := by
  have hinit := bfsInv_init es o d
  have hU := universe_pos es o
  have hfuel : ([o] : List String).length +
      2 * ((nodeUniverse es o).length - (keysP [(o, none)]).length) < bfsFuel es o := by
    show 1 + 2 * ((nodeUniverse es o).length - 1) < bfsFuel es o
    unfold bfsFuel
    omega
  rcases bfsAux_spec es o d (bfsFuel es o) [o] [(o, none)] hinit hfuel with
    ⟨pm2, heq, hok, hgmem⟩ | ⟨pm2, heq, hnr⟩
  · refine ⟨pm2, ?_, hok, hgmem⟩
    unfold bfsRun
    rw [heq]
  · exact absurd h hnr

theorem bfsRun_unreachable (es : List Edge) (o d : String) (h : ¬ Reach es o d) :
    (bfsRun es o d).1 = false := by
  have hinit := bfsInv_init es o d
  have hU := universe_pos es o
  have hfuel : ([o] : List String).length +
      2 * ((nodeUniverse es o).length - (keysP [(o, none)]).length) < bfsFuel es o := by
    show 1 + 2 * ((nodeUniverse es o).length - 1) < bfsFuel es o
    unfold bfsFuel
    omega
  rcases bfsAux_spec es o d (bfsFuel es o) [o] [(o, none)] hinit hfuel with
    ⟨pm2, heq, hok, hgmem⟩ | ⟨pm2, heq, hnr⟩
  · exfalso
    rcases hok.reach d hgmem with ⟨j, hdj⟩
    rcases hdj.1 with ⟨l, hw, _⟩
    exact h ⟨l, hw⟩
  · unfold bfsRun
    rw [heq]

/-- C1: whenever the destination is reachable, the BFS path of `createTrip` is
a walk from origin to destination with the minimum possible number of ranks —
its hop count is the graph-theoretic shortest hop count. -/
theorem createTrip_bfs_shortest (es : List Edge) (o d : String)
    (h : Reach es o d) :
    ∃ p, bfsPath es o d = some p ∧ Walk es o d p ∧
      ∀ l, Walk es o d l → p.length ≤ l.length := by
  rcases bfsRun_found es o d h with ⟨pm2, hrun, hok, hd⟩
  rcases dist_exists es o d h with ⟨n, hdist⟩
  rcases chain_spec es o pm2 hok n d hd hdist with
    ⟨l, hchain, hlen, hnd, hkeys, _, hwalk⟩
  have hle : n + 1 ≤ pm2.length := by
    have h1 : l.length ≤ (keysP pm2).length := (hnd.subperm hkeys).length_le
    have h2 : (keysP pm2).length = pm2.length := List.length_map _ _
    omega
  refine ⟨l.reverse, ?_, hwalk, ?_⟩
  · unfold bfsPath
    rw [hrun]
    dsimp only
    rw [hchain pm2.length hle]
    rfl
  · intro l2 hl2
    have := hdist.2 l2 hl2
    rw [List.length_reverse, hlen]
    omega

/-- C3: with truthy origin/destination and no connecting path, the stateful
`createTrip` returns the unreachable validation error and leaves the store —
in particular the trip collection — exactly as it was. -/
theorem createTrip_unreachable (st : St) (nid : Nat) (o d : String)
    (ho : o ≠ "") (hd : d ≠ "") (h : ¬ Reach st.edges o d) :
    createTripSt st nid o d = (Except.error TripErr.unreachable, st) := by
  have hfalse := bfsRun_unreachable st.edges o d h
  have hb : bfsPath st.edges o d = none := by
    unfold bfsPath
    dsimp only
    rw [hfalse]
    rfl
  have hc : createTrip st.edges o d = none := by
    unfold createTrip
    rw [hb]
  unfold createTripSt
  rw [if_neg (by tauto), hc]

theorem createTrip_bfs_shortest_witness :
    Reach [edgeAB, edgeBC] "A" "C" ∧
    (∃ p, bfsPath [edgeAB, edgeBC] "A" "C" = some p ∧
      Walk [edgeAB, edgeBC] "A" "C" p ∧
      ∀ l, Walk [edgeAB, edgeBC] "A" "C" l → p.length ≤ l.length) := by
  have hre : Reach [edgeAB, edgeBC] "A" "C" := by
    refine ⟨["A", "B", "C"], rfl, rfl, ?_⟩
    refine List.chain'_cons.mpr ⟨by decide, ?_⟩
    exact List.chain'_cons.mpr ⟨by decide, List.chain'_singleton _⟩
  exact ⟨hre, createTrip_bfs_shortest [edgeAB, edgeBC] "A" "C" hre⟩

theorem createTrip_unreachable_witness :
    ("X" : String) ≠ "" ∧ ("Y" : String) ≠ "" ∧ ¬ Reach [] "X" "Y" ∧
    createTripSt ⟨[], [], [], []⟩ 5 "X" "Y" =
      (Except.error TripErr.unreachable, ⟨[], [], [], []⟩) := by
  have hnr : ¬ Reach [] "X" "Y" := not_reach_nil "X" "Y" (by decide)
  exact ⟨by decide, by decide, hnr,
    createTrip_unreachable ⟨[], [], [], []⟩ 5 "X" "Y" (by decide) (by decide) hnr⟩

end NedParcel
